import Mathlib

/-!
Verification of the graph versioning / change-tracking engine of an
interactive node-edge ("mind map") editor.

The Lean definitions below are a shallow embedding of the JavaScript source:

* `src/my-react-flow-app/src/utils/graphUtils.js` — equality predicates,
  `computePendingChanges`, `attachNodeType`, `getNodeTypeId`;
* `src/my-react-flow-app/src/nodeTypes.js` (shipped as `src/unnamed/part_007`)
  — `normalizeNodeType`, the canonical node-type table and the legacy map;
* `src/my-react-flow-app/src/App.jsx` — the staging reconciliation effect,
  `handleToggleStage` / `handleStageAll` / `handleUnstageAll`,
  `handleRevertChange`, `handleSync`, the history-recording effect,
  `undo` / `redo` / `applySnapshot`, and the node-drag handlers.

Modelling conventions:

* JavaScript primitive values compared with `===` are modelled by `JVal`
  (string / number / boolean / null).  Numbers are modelled as `Int`: the
  programs compare them only for equality, never do arithmetic on them.
* A JavaScript object literal is a key-ordered association list `JObj`
  (JS object keys are unique and insertion-ordered; `{...o, k: v}` updates
  `k` in place when present, else appends).
* `new Map(list.map(x => [key(x), x])).get(k)` returns the **last** entry of
  `list` whose key is `k` (later inserts overwrite); this is `mapGet`.
* `JSON.parse(JSON.stringify(x))` (`cloneGraphState`) is the identity on the
  modelled value domain (no `undefined` values, no aliasing in the model),
  so snapshots are modelled by the values themselves.
-/

unseal List.merge List.mergeSort

set_option maxRecDepth 4000

namespace MindMap

/-- A JavaScript primitive value as compared by `===`. -/
inductive JVal where
  | str (s : String)
  | num (n : Int)
  | boolean (b : Bool)
  | null
deriving DecidableEq, Repr

/-- A JavaScript object: insertion-ordered association list with unique keys. -/
abbrev JObj := List (String × JVal)

/-- `o[k]`: `some v` when the key is present, `none` (= `undefined`) otherwise. -/
def getKey (o : JObj) (k : String) : Option JVal :=
  List.lookup k o

/-- `{...o, k: v}`: updates `k` in place when present, else appends it. -/
def setKey (o : JObj) (k : String) (v : JVal) : JObj :=
  if o.any (fun kv => kv.1 == k) then
    o.map (fun kv => if kv.1 == k then (k, v) else kv)
  else
    o ++ [(k, v)]

/-- A React Flow node, restricted to the fields the versioning engine reads.
`data` and `style` default to the empty object: every access in the source
goes through `x.data ?? {}` / `x.style ?? {}`, so a missing object and an
empty one are indistinguishable. -/
structure Node where
  id : String
  type : Option String := none
  nodeType : Option String := none
  position : Option (Int × Int) := none
  data : JObj := []
  style : JObj := []
deriving DecidableEq, Repr

/-- A React Flow edge, restricted to the fields the versioning engine reads. -/
structure Edge where
  id : String
  source : String
  target : String
  sourceHandle : Option String := none
  targetHandle : Option String := none
  data : JObj := []
  type : Option String := none
  label : Option JVal := none
  animated : Option Bool := none
deriving DecidableEq, Repr

/-- `new Map(l.map(x => [key(x), x])).get(k)`: last write wins on duplicate
keys, so the lookup finds the last matching element. -/
def mapGet (key : α → String) (l : List α) (k : String) : Option α :=
  l.reverse.find? (fun x => key x == k)

/-- `shallowEqualObjects` (graphUtils.js:13): same number of keys and, for
every key of `a`, `b` has a `===`-equal value (JS object keys are unique, so
equal key-counts plus key-of-`a` agreement means equal key sets). -/
def shallowEqualObjects (a b : JObj) : Bool :=
  a.length == b.length && a.all (fun kv => getKey b kv.1 == some kv.2)

/-- `isNodeEqual` (graphUtils.js:23): loose node equality — `type` plus
shallow-equal `data`.  The `!a || !b` guard is vacuous in the typed model. -/
def isNodeEqual (a b : Node) : Bool :=
  a.type == b.type && shallowEqualObjects a.data b.data

/-- `isEdgeEqual` (graphUtils.js:30): loose edge equality — endpoints,
handles (`?? null`), and shallow-equal `data`. -/
def isEdgeEqual (a b : Edge) : Bool :=
  a.source == b.source && a.target == b.target &&
  a.sourceHandle == b.sourceHandle && a.targetHandle == b.targetHandle &&
  shallowEqualObjects a.data b.data

/-- `areNodeListsEqual` (graphUtils.js:40): strict node-list equality —
same length, and for each node of `a` a map-mate in `b` with identical
position coordinates, identical `type`, shallow-equal `style` and `data`. -/
def areNodeListsEqual (a b : List Node) : Bool :=
  a.length == b.length &&
  a.all (fun node =>
    match mapGet Node.id b node.id with
    | none => false
    | some other =>
      node.position.map Prod.fst == other.position.map Prod.fst &&
      node.position.map Prod.snd == other.position.map Prod.snd &&
      node.type == other.type &&
      shallowEqualObjects node.style other.style &&
      shallowEqualObjects node.data other.data)

/-- `areEdgeListsEqual` (graphUtils.js:56): strict edge-list equality —
loose edge equality plus `type ?? null`, `label ?? null`, `animated ?? false`. -/
def areEdgeListsEqual (a b : List Edge) : Bool :=
  a.length == b.length &&
  a.all (fun edge =>
    match mapGet Edge.id b edge.id with
    | none => false
    | some other =>
      isEdgeEqual edge other &&
      edge.type == other.type &&
      edge.label == other.label &&
      edge.animated.getD false == other.animated.getD false)

/-- `areGraphsEqual` (graphUtils.js:70). -/
def areGraphsEqual (prevNodes : List Node) (prevEdges : List Edge)
    (nextNodes : List Node) (nextEdges : List Edge) : Bool :=
  areNodeListsEqual prevNodes nextNodes && areEdgeListsEqual prevEdges nextEdges

inductive ChangeKind where
  | node
  | edge
deriving DecidableEq, Repr

inductive ChangeType where
  | added
  | modified
  | removed
deriving DecidableEq, Repr

/-- One entry of the diff between the live graph and the baseline, mirroring
the object literals built by `computePendingChanges`.  Fields that a given
variant does not set are `none` (undefined). -/
structure PendingChange where
  id : String
  kind : ChangeKind
  changeType : ChangeType
  nodeId : Option String := none
  currentNode : Option Node := none
  previousNode : Option Node := none
  edgeId : Option String := none
  currentEdge : Option Edge := none
  previousEdge : Option Edge := none
deriving DecidableEq, Repr

def nodeChangeId (id : String) : String := "node:" ++ id

def edgeChangeId (id : String) : String := "edge:" ++ id

def addedNodeChange (n : Node) : PendingChange :=
  { id := nodeChangeId n.id, kind := .node, changeType := .added,
    nodeId := some n.id, currentNode := some n }

def modifiedNodeChange (n prev : Node) : PendingChange :=
  { id := nodeChangeId n.id, kind := .node, changeType := .modified,
    nodeId := some n.id, currentNode := some n, previousNode := some prev }

def removedNodeChange (prev : Node) : PendingChange :=
  { id := nodeChangeId prev.id, kind := .node, changeType := .removed,
    nodeId := some prev.id, previousNode := some prev }

def addedEdgeChange (e : Edge) : PendingChange :=
  { id := edgeChangeId e.id, kind := .edge, changeType := .added,
    edgeId := some e.id, currentEdge := some e }

def modifiedEdgeChange (e prev : Edge) : PendingChange :=
  { id := edgeChangeId e.id, kind := .edge, changeType := .modified,
    edgeId := some e.id, currentEdge := some e, previousEdge := some prev }

def removedEdgeChange (prev : Edge) : PendingChange :=
  { id := edgeChangeId prev.id, kind := .edge, changeType := .removed,
    edgeId := some prev.id, previousEdge := some prev }

/-- Lexicographic comparison of character lists by code point, the order
underlying `String.prototype.localeCompare` on the ASCII change ids used
here. -/
def charListLE : List Char → List Char → Bool
  | [], _ => true
  | _ :: _, [] => false
  | a :: as, b :: bs => if a == b then charListLE as bs else decide (a.toNat < b.toNat)

/-- `a.localeCompare(b) <= 0`, modelled as code-unit lexicographic order. -/
def strLE (a b : String) : Bool := charListLE a.data b.data

/-- The comparator passed to `changes.sort` (graphUtils.js:152), turned into
a boolean "comes no later than" relation: node changes before edge changes,
and within one kind ordered by `id` (`localeCompare` modelled as the
lexicographic string order). -/
def changeLE (a b : PendingChange) : Bool :=
  if a.kind == b.kind then strLE a.id b.id else a.kind == ChangeKind.node

/-- One step of the added/modified pass over current nodes (graphUtils.js:81). -/
def nodeUpsertAt (lastSyncedNodes : List Node) (node : Node) : Option PendingChange :=
  match mapGet Node.id lastSyncedNodes node.id with
  | none => some (addedNodeChange node)
  | some previousNode =>
    if isNodeEqual node previousNode then none
    else some (modifiedNodeChange node previousNode)

/-- One step of the removed pass over baseline nodes (graphUtils.js:103). -/
def nodeRemovalAt (nodes : List Node) (previousNode : Node) : Option PendingChange :=
  if (mapGet Node.id nodes previousNode.id).isSome then none
  else some (removedNodeChange previousNode)

/-- One step of the added/modified pass over current edges (graphUtils.js:118). -/
def edgeUpsertAt (lastSyncedEdges : List Edge) (edge : Edge) : Option PendingChange :=
  match mapGet Edge.id lastSyncedEdges edge.id with
  | none => some (addedEdgeChange edge)
  | some previousEdge =>
    if isEdgeEqual edge previousEdge then none
    else some (modifiedEdgeChange edge previousEdge)

/-- One step of the removed pass over baseline edges (graphUtils.js:140). -/
def edgeRemovalAt (edges : List Edge) (previousEdge : Edge) : Option PendingChange :=
  if (mapGet Edge.id edges previousEdge.id).isSome then none
  else some (removedEdgeChange previousEdge)

/-- The unsorted `changes` array of `computePendingChanges`: the four `forEach`
passes push in program order — node upserts, node removals, edge upserts,
edge removals. -/
def rawChanges (nodes : List Node) (edges : List Edge)
    (lastSyncedNodes : List Node) (lastSyncedEdges : List Edge) :
    List PendingChange :=
  nodes.filterMap (nodeUpsertAt lastSyncedNodes) ++
    lastSyncedNodes.filterMap (nodeRemovalAt nodes) ++
    edges.filterMap (edgeUpsertAt lastSyncedEdges) ++
    lastSyncedEdges.filterMap (edgeRemovalAt edges)

/-- `computePendingChanges` (graphUtils.js:75): the four passes in program
order, then the final `sort` (JS `Array.prototype.sort` is stable, modelled
by the stable `List.mergeSort`). -/
def computePendingChanges (nodes : List Node) (edges : List Edge)
    (lastSyncedNodes : List Node) (lastSyncedEdges : List Edge) :
    List PendingChange :=
  (rawChanges nodes edges lastSyncedNodes lastSyncedEdges).mergeSort changeLE

/-- Two diff entries occupy the same "slot" when kind and change id agree. -/
def sameKey (a b : PendingChange) : Prop := a.kind = b.kind ∧ a.id = b.id

/-- Sample baseline node `A {label: "x"}` used by witnesses. -/
def sampleNodeA : Node :=
  { id := "A", type := some "logic", data := [("label", JVal.str "x")] }

/-- Sample live node `A {label: "y"}` (a loose modification of `sampleNodeA`). -/
def sampleNodeA2 : Node :=
  { id := "A", type := some "logic", data := [("label", JVal.str "y")] }

/-- Sample added node `B`. -/
def sampleNodeB : Node :=
  { id := "B", type := some "logic", data := [("label", JVal.str "b")] }

/-! ### Staging tracker (App.jsx:990 reconciliation effect, 1279-1289 actions) -/

/-- The staging tracker's state: `stagedChangeIds` plus `seenChangeIdsRef`. -/
structure StagingState where
  staged : List String
  seen : List String
deriving DecidableEq, Repr

/-- The reconciliation effect (App.jsx:990): keep staged ids still pending,
push every pending id that is neither seen nor already in the list, then
replace the seen set with the current pending ids
(`seenChangeIdsRef.current = new Set(pendingIds)`). -/
def reconcile (pendingIds : List String) (s : StagingState) : StagingState :=
  let dropped := s.staged.filter (fun id => pendingIds.contains id)
  let staged := pendingIds.foldl
    (fun next id =>
      if (!s.seen.contains id && !next.contains id) then next ++ [id] else next)
    dropped
  { staged := staged, seen := pendingIds }

/-- A sequence of reconciliations against successive pending-id lists. -/
def reconcileAll (pss : List (List String)) (s : StagingState) : StagingState :=
  pss.foldl (fun t P => reconcile P t) s

/-- `handleToggleStage` (App.jsx:1279). -/
def handleToggleStage (changeId : String) (s : StagingState) : StagingState :=
  { s with staged :=
      if s.staged.contains changeId then s.staged.filter (fun id => id != changeId)
      else s.staged ++ [changeId] }

/-- `handleStageAll` (App.jsx:1283). -/
def handleStageAll (pendingIds : List String) (s : StagingState) : StagingState :=
  { s with staged := pendingIds }

/-- `handleUnstageAll` (App.jsx:1287): clears the staged list only; the
seen-id ref is untouched. -/
def handleUnstageAll (s : StagingState) : StagingState :=
  { s with staged := [] }

/-! ### Node-type normalization (nodeTypes.js) and `attachNodeType`
(graphUtils.js:158-172) -/

/-- JS whitespace stripped by `String.prototype.trim` on the strings at hand. -/
def isWsChar (c : Char) : Bool :=
  c == ' ' || c == '\t' || c == '\n' || c == '\r'

/-- `String.prototype.trim`, modelled on the character list. -/
def jsTrim (s : String) : String :=
  String.mk (((s.data.dropWhile isWsChar).reverse.dropWhile isWsChar).reverse)

/-- `String.prototype.toLowerCase`, modelled on the character list (the
node-type vocabulary is ASCII). -/
def jsToLower (s : String) : String :=
  String.mk (s.data.map Char.toLower)

/-- `DEFAULT_NODE_TYPE` (nodeTypes.js:9). -/
def DEFAULT_NODE_TYPE : String := "logic"

/-- The key set of `NODE_TYPE_DEFINITIONS` (nodeTypes.js:14). -/
def NODE_TYPE_IDS : List String :=
  ["logic", "descriptive", "event", "condition", "data", "output"]

/-- `LEGACY_TYPE_MAP` (nodeTypes.js:69). -/
def LEGACY_TYPE_MAP : List (String × String) :=
  [("note", "logic"), ("default", "logic"), ("input", "data"),
   ("output", "output"), ("modifier", "logic")]

/-- `normalizeNodeType` (nodeTypes.js:83): trim/lowercase string input (any
non-string becomes `""`), accept canonical ids, map legacy ids, else the
default type. -/
def normalizeNodeType (raw : Option JVal) : String :=
  let value := match raw with
    | some (JVal.str s) => jsToLower (jsTrim s)
    | _ => ""
  if value ≠ "" ∧ value ∈ NODE_TYPE_IDS then value
  else
    match (if value ≠ "" then List.lookup value LEGACY_TYPE_MAP else none) with
    | some mapped => mapped
    | none => DEFAULT_NODE_TYPE

/-- JS `a ?? b` where both `null` and `undefined` fall through to `b`. -/
def jvalCoalesce (v w : Option JVal) : Option JVal :=
  match v with
  | some JVal.null => w
  | none => w
  | some x => some x

/-- `getNodeTypeId` (graphUtils.js:158):
`normalizeNodeType(node?.data?.nodeType ?? node?.nodeType ?? node?.type ?? fallback)`. -/
def getNodeTypeId (node : Node) (fallback : String) : String :=
  normalizeNodeType
    (jvalCoalesce (getKey node.data "nodeType")
      (jvalCoalesce (node.nodeType.map JVal.str)
        (jvalCoalesce (node.type.map JVal.str) (some (JVal.str fallback)))))

/-- `attachNodeType` (graphUtils.js:161): resolve the node type (a falsy —
empty — `preferredType` falls back to `getNodeTypeId`), then stamp it on
`type`, `nodeType` and `data.nodeType`. -/
def attachNodeType (node : Node) (preferredType : Option String) : Node :=
  let nodeType :=
    match preferredType with
    | some p =>
      if p ≠ "" then normalizeNodeType (some (JVal.str p))
      else getNodeTypeId node DEFAULT_NODE_TYPE
    | none => getNodeTypeId node DEFAULT_NODE_TYPE
  { node with
    type := some nodeType,
    nodeType := some nodeType,
    data := setKey node.data "nodeType" (JVal.str nodeType) }

/-! ### Commit / sync coordinator (`handleSync`, App.jsx:1337-1427) -/

/-- One generated file of the commit response. -/
structure GenFile where
  path : String
  contents : String
deriving DecidableEq, Repr

/-- The outbound commit request body (App.jsx:1361). -/
structure SyncRequest where
  nodes : List Node
  edges : List Edge
  changes : List PendingChange
  intent : String
deriving DecidableEq, Repr

/-- How the awaited `fetch` + `response.json()` settles: transport rejection,
non-2xx status (the thrown `Sync failed: ...` error), an unparsable body, or
a parsed body whose `files` field is an array (`some`) or not (`none`). -/
inductive CommitOutcome where
  | transportError (message : String)
  | httpError (message : String)
  | parseError (message : String)
  | success (files : Option (List GenFile))
deriving DecidableEq, Repr

/-- The error message a failing outcome surfaces; `none` on success. -/
def outcomeMessage : CommitOutcome → Option String
  | CommitOutcome.transportError m => some m
  | CommitOutcome.httpError m => some m
  | CommitOutcome.parseError m => some m
  | CommitOutcome.success _ => none

/-- The per-node annotation of the request body (App.jsx:1342): resolved
`type`/`nodeType`, `data.nodeType` stamped.  The derived `isDescriptive`
flag is a function of `nodeType` and is not carried by `Node`. -/
def nodeForSync (node : Node) : Node :=
  let nodeType := getNodeTypeId node DEFAULT_NODE_TYPE
  { node with
    type := some nodeType,
    nodeType := some nodeType,
    data := setKey node.data "nodeType" (JVal.str nodeType) }

/-- The sync-related component state of `App` (App.jsx:814-824).
`lastSyncedAt` is a clock reading (`new Date()`), `lastSyncedVersion` starts
as `null` and only ever holds numbers afterwards. -/
structure SyncState where
  nodes : List Node
  edges : List Edge
  pendingChanges : List PendingChange
  stagedChangeIds : List String
  lastSyncedNodes : List Node
  lastSyncedEdges : List Edge
  lastSyncedVersion : Option Nat
  lastSyncedAt : Option Nat
  isSyncing : Bool
  syncError : Option String
  generatedFiles : List GenFile
deriving DecidableEq, Repr

/-- The `setLastSyncedVersion` updater (App.jsx:1383): `null ⇒ 1`,
number ⇒ `prev + 1`.  (The string-parsing fallback branch is unreachable:
the state only ever holds `null` or numbers written by this updater.) -/
def bumpVersion : Option Nat → Option Nat
  | none => some 1
  | some v => some (v + 1)

/-- `map.set(k, v)` on a JS `Map` modelled as an insertion-ordered
association list: update in place when the key exists, else append. -/
def jsMapSet {α : Type} (m : List (Option String × α)) (k : Option String)
    (v : α) : List (Option String × α) :=
  if m.any (fun kv => kv.1 == k) then
    m.map (fun kv => if kv.1 == k then (k, v) else kv)
  else m ++ [(k, v)]

/-- `map.delete(k)` on the same model. -/
def jsMapDelete {α : Type} (m : List (Option String × α)) (k : Option String) :
    List (Option String × α) :=
  m.filter (fun kv => kv.1 != k)

/-- `map.get(k)` on the same model (keys are unique by construction). -/
def jsMapGetA {α : Type} (m : List (Option String × α)) (k : Option String) :
    Option α :=
  (m.find? (fun kv => kv.1 == k)).map (fun kv => kv.2)

/-- One staged-change step of the `setLastSyncedNodes` fold (App.jsx:1392). -/
def applyNodeChangeToMap (m : List (Option String × Node))
    (change : PendingChange) : List (Option String × Node) :=
  if change.kind != ChangeKind.node then m
  else match change.changeType, change.currentNode with
    | ChangeType.added, some cn => jsMapSet m change.nodeId cn
    | ChangeType.added, none => m
    | ChangeType.removed, _ => jsMapDelete m change.nodeId
    | ChangeType.modified, some cn => jsMapSet m change.nodeId cn
    | ChangeType.modified, none => m

/-- One staged-change step of the `setLastSyncedEdges` fold (App.jsx:1407). -/
def applyEdgeChangeToMap (m : List (Option String × Edge))
    (change : PendingChange) : List (Option String × Edge) :=
  if change.kind != ChangeKind.edge then m
  else match change.changeType, change.currentEdge with
    | ChangeType.added, some ce => jsMapSet m change.edgeId ce
    | ChangeType.added, none => m
    | ChangeType.removed, _ => jsMapDelete m change.edgeId
    | ChangeType.modified, some ce => jsMapSet m change.edgeId ce
    | ChangeType.modified, none => m

/-- `new Map(nodes.map(n => [n.id, n]))`: sequential insertion with
overwrite. -/
def jsMapFromNodes (l : List Node) : List (Option String × Node) :=
  l.foldl (fun m n => jsMapSet m (some n.id) n) []

/-- `new Map(edges.map(e => [e.id, e]))`. -/
def jsMapFromEdges (l : List Edge) : List (Option String × Edge) :=
  l.foldl (fun m e => jsMapSet m (some e.id) e) []

/-- `setLastSyncedNodes` on success (App.jsx:1390): build a `Map` from the
previous baseline, fold the staged changes into it, take
`Array.from(map.values())`. -/
def foldNodeBaseline (previousSynced : List Node)
    (stagedChanges : List PendingChange) : List Node :=
  (stagedChanges.foldl applyNodeChangeToMap (jsMapFromNodes previousSynced)).map
    Prod.snd

/-- `setLastSyncedEdges` on success (App.jsx:1405). -/
def foldEdgeBaseline (previousSynced : List Edge)
    (stagedChanges : List PendingChange) : List Edge :=
  (stagedChanges.foldl applyEdgeChangeToMap (jsMapFromEdges previousSynced)).map
    Prod.snd

/-- `pendingChanges.filter(c => stagedSet.has(c.id))` (App.jsx:1341). -/
def stagedSubset (s : SyncState) : List PendingChange :=
  s.pendingChanges.filter (fun c => s.stagedChangeIds.contains c.id)

/-- `handleSync` (App.jsx:1337): the state once the call settles, plus the
request sent (`none` when the empty-staging guard returned early).
`outcome` is how the awaited network call resolves, `now` the value of
`new Date()`.  `setIsSyncing(true)` and the `finally` `setIsSyncing(false)`
cancel out in the settled state. -/
def handleSync (s : SyncState) (outcome : CommitOutcome) (now : Nat) :
    SyncState × Option SyncRequest :=
  if s.stagedChangeIds.isEmpty then (s, none)
  else
    let stagedChanges := stagedSubset s
    let req : SyncRequest :=
      { nodes := s.nodes.map nodeForSync, edges := s.edges,
        changes := stagedChanges, intent := "sync" }
    match outcome with
    | CommitOutcome.success files =>
      ({ s with
          generatedFiles := files.getD [],
          lastSyncedAt := some now,
          lastSyncedVersion := bumpVersion s.lastSyncedVersion,
          lastSyncedNodes := foldNodeBaseline s.lastSyncedNodes stagedChanges,
          lastSyncedEdges := foldEdgeBaseline s.lastSyncedEdges stagedChanges,
          stagedChangeIds := [],
          syncError := none,
          isSyncing := false }, some req)
    | o =>
      ({ s with syncError := outcomeMessage o, isSyncing := false }, some req)

/-- The Sync button's `disabled` attribute (App.jsx:1621):
`!stagedChangeIds.length || isSyncing`. -/
def syncButtonDisabled (s : SyncState) : Bool :=
  s.stagedChangeIds.isEmpty || s.isSyncing

/-- Concrete one-staged-change state used by the sync witnesses. -/
def sampleSyncState : SyncState :=
  { nodes := [sampleNodeB], edges := [],
    pendingChanges := [addedNodeChange sampleNodeB],
    stagedChangeIds := [nodeChangeId "B"],
    lastSyncedNodes := [], lastSyncedEdges := [],
    lastSyncedVersion := none, lastSyncedAt := none,
    isSyncing := false, syncError := none, generatedFiles := [] }

/-- `sampleSyncState` with a commit already in flight. -/
def inflightSyncState : SyncState :=
  { sampleSyncState with isSyncing := true }

/-- Well-formedness of a JS map produced by the baseline fold: every entry is
keyed by its value's id and keys are duplicate-free. -/
def keyedBy {α : Type} (key : α → String)
    (m : List (Option String × α)) : Prop :=
  (∀ kv ∈ m, kv.1 = some (key kv.2)) ∧ (m.map Prod.fst).Nodup

/-! ### History stack, undo/redo, drag coalescing (App.jsx:840-846, 864-889,
944-976, 1079-1108) -/

/-- A live-graph snapshot (`cloneGraphState` output; the JSON round-trip is
the identity on modelled values). -/
structure Graph where
  nodes : List Node
  edges : List Edge
deriving DecidableEq, Repr

/-- `HISTORY_LIMIT` (App.jsx:35). -/
def HISTORY_LIMIT : Nat := 50

/-- `[...stack, x].slice(-HISTORY_LIMIT)`: append and keep the most recent
`HISTORY_LIMIT` entries, dropping the oldest. -/
def pushBounded (stack : List Graph) (x : Graph) : List Graph :=
  (stack ++ [x]).drop (stack.length + 1 - HISTORY_LIMIT)

/-- The editor's history-related refs and the live graph (App.jsx:836-846). -/
structure EditorState where
  graph : Graph
  history : List Graph
  future : List Graph
  prevGraph : Option Graph
  isRestoring : Bool
  skipHistoryOnce : Bool
  isDragging : Bool
  dragStartSnapshot : Option Graph
deriving DecidableEq, Repr

/-- The history-recording effect on `[nodes, edges]` (App.jsx:864-889). -/
def historyEffect (s : EditorState) : EditorState :=
  if s.isRestoring then
    { s with prevGraph := some s.graph, isRestoring := false }
  else if s.skipHistoryOnce then
    { s with skipHistoryOnce := false, prevGraph := some s.graph }
  else if s.isDragging then s
  else
    match s.prevGraph with
    | some previous =>
      if areGraphsEqual previous.nodes previous.edges s.graph.nodes
          s.graph.edges then s
      else
        { s with
          history := pushBounded s.history previous,
          future := [],
          prevGraph := some s.graph }
    | none => { s with prevGraph := some s.graph }

/-- One live-graph mutation: the state update plus the effect run it
triggers. -/
def mutateGraph (s : EditorState) (g : Graph) : EditorState :=
  historyEffect { s with graph := g }

/-- A sequence of mutations. -/
def mutateAll (s : EditorState) (gs : List Graph) : EditorState :=
  gs.foldl mutateGraph s

/-- `undo` (App.jsx:962) together with the effect run triggered by
`applySnapshot` (the "Restoring" resync; the selection repair concerns state
outside this model).  The stack top is the last element; the future push is
a plain `push` with no capacity bound. -/
def undo (s : EditorState) : EditorState :=
  match s.history.getLast? with
  | none => s
  | some previous =>
    historyEffect
      { s with
        history := s.history.dropLast,
        future := s.future ++ [s.graph],
        graph := previous,
        isRestoring := true }

/-- `redo` (App.jsx:969) together with the triggered effect run; the history
push is capacity-bounded (`slice(-HISTORY_LIMIT)`). -/
def redo (s : EditorState) : EditorState :=
  match s.future.getLast? with
  | none => s
  | some next =>
    historyEffect
      { s with
        future := s.future.dropLast,
        history := pushBounded s.history s.graph,
        graph := next,
        isRestoring := true }

/-- `onNodeDragStart` (App.jsx:1079): capture the gesture-start snapshot
(selection updates concern state outside this model). -/
def onNodeDragStart (s : EditorState) : EditorState :=
  if s.isDragging then s
  else { s with isDragging := true, dragStartSnapshot := some s.graph }

/-- `onNodeDragStop` (App.jsx:1091). -/
def onNodeDragStop (s : EditorState) : EditorState :=
  if s.isDragging then
    match s.dragStartSnapshot with
    | none =>
      { s with
        isDragging := false, dragStartSnapshot := none,
        prevGraph := some s.graph, skipHistoryOnce := true }
    | some startSnapshot =>
      if areGraphsEqual startSnapshot.nodes startSnapshot.edges s.graph.nodes
          s.graph.edges then
        { s with
          isDragging := false, dragStartSnapshot := none,
          prevGraph := some s.graph, skipHistoryOnce := true }
      else
        { s with
          isDragging := false, dragStartSnapshot := none,
          history := pushBounded s.history startSnapshot,
          future := [],
          prevGraph := some s.graph, skipHistoryOnce := true }
  else s

/-- Every operation that touches the history machinery. -/
inductive EditorEv where
  | mutate (g : Graph)
  | dragStart
  | dragStop
  | undoEv
  | redoEv
deriving DecidableEq, Repr

def stepEditor (s : EditorState) : EditorEv → EditorState
  | EditorEv.mutate g => mutateGraph s g
  | EditorEv.dragStart => onNodeDragStart s
  | EditorEv.dragStop => onNodeDragStop s
  | EditorEv.undoEv => undo s
  | EditorEv.redoEv => redo s

def runEditor (s : EditorState) (evs : List EditorEv) : EditorState :=
  evs.foldl stepEditor s

/-- The state at mount (App.jsx:840-846): empty stacks, cleared flags,
`prevGraphRef` seeded with a clone of the initial graph. -/
def initialEditorState (g : Graph) : EditorState :=
  { graph := g, history := [], future := [], prevGraph := some g,
    isRestoring := false, skipHistoryOnce := false, isDragging := false,
    dragStartSnapshot := none }

/-- `undo` applied `n` times. -/
def undoN : Nat → EditorState → EditorState
  | 0, s => s
  | n + 1, s => undoN n (undo s)

/-- `redo` applied `n` times. -/
def redoN : Nat → EditorState → EditorState
  | 0, s => s
  | n + 1, s => redoN n (redo s)

/-- Each mutation of the run produces a strict-equality-detectable change
from its predecessor. -/
def strictChainB : Graph → List Graph → Bool
  | _, [] => true
  | g, h :: t =>
    !areGraphsEqual g.nodes g.edges h.nodes h.edges && strictChainB h t

/-- The canonical state mid undo/redo navigation: mutations `d` are applied
(most recent last) and mutations `r` are undone (most recently undone
first... in `future` order, oldest first). -/
def histState (s : EditorState) (d r : List Graph) : EditorState :=
  { graph := d.getLastD s.graph,
    history := s.history ++ (s.graph :: d).dropLast,
    future := r.reverse,
    prevGraph := some (d.getLastD s.graph),
    isRestoring := false, skipHistoryOnce := false, isDragging := false,
    dragStartSnapshot := s.dragStartSnapshot }

/-- A concrete moved node used in drag-gesture witnesses. -/
def dragNode (i : Int) : Node :=
  { id := "n"
    type := some "logic"
    position := some (i, 0)
    data := [("label", JVal.str "n")] }

def dragGraph (i : Int) : Graph :=
  { nodes := [dragNode i]
    edges := [] }

/-- Both stacks stay within the capacity. -/
def histInv (s : EditorState) : Prop :=
  s.history.length + s.future.length ≤ HISTORY_LIMIT

/-- The mount state used by the C8 counterexample. -/
def cexStart : EditorState := initialEditorState (dragGraph 0)

/-- 51 pairwise strictly-different graphs. -/
def cexMuts : List Graph :=
  (List.range 51).map (fun i => dragGraph ((i : Int) + 1))

/-! ### Revert (`handleRevertChange`, App.jsx:1296-1335) -/

/-- The state slices read and written by `handleRevertChange`. -/
structure RevertState where
  nodes : List Node
  edges : List Edge
  stagedChangeIds : List String
  pendingChanges : List PendingChange
deriving DecidableEq, Repr

/-- The `setNodes` updater of `handleRevertChange` (App.jsx:1301-1314):
delete an added node, reinsert `attachNodeType(previousNode)` for a removed
one unless the id is already present, overwrite with
`attachNodeType(previousNode)` for a modified one. -/
def revertNodes (change : PendingChange) (current : List Node) : List Node :=
  if change.changeType == ChangeType.added then
    current.filter (fun node => !(some node.id == change.nodeId))
  else if change.changeType == ChangeType.removed then
    match change.previousNode with
    | some previousNode =>
      if (current.find? (fun node => some node.id == change.nodeId)).isSome
      then current
      else current ++ [attachNodeType previousNode none]
    | none => current
  else if change.changeType == ChangeType.modified then
    match change.previousNode with
    | some previousNode =>
      current.map (fun node =>
        if some node.id == change.nodeId then attachNodeType previousNode none
        else node)
    | none => current
  else current

/-- The `setEdges` updater of `handleRevertChange` (App.jsx:1316-1328): as
for nodes, but the previous edge is reinserted verbatim. -/
def revertEdges (change : PendingChange) (current : List Edge) : List Edge :=
  if change.changeType == ChangeType.added then
    current.filter (fun edge => !(some edge.id == change.edgeId))
  else if change.changeType == ChangeType.removed then
    match change.previousEdge with
    | some previousEdge =>
      if (current.find? (fun edge => some edge.id == change.edgeId)).isSome
      then current
      else current ++ [previousEdge]
    | none => current
  else if change.changeType == ChangeType.modified then
    match change.previousEdge with
    | some previousEdge =>
      current.map (fun edge =>
        if some edge.id == change.edgeId then previousEdge else edge)
    | none => current
  else current

/-- `handleRevertChange` (App.jsx:1296): look the change up in the pending
list, apply the kind-appropriate updater to the live graph, then drop the
change id from the staged set and the pending list. -/
def handleRevertChange (changeId : String) (s : RevertState) : RevertState :=
  match s.pendingChanges.find? (fun item => item.id == changeId) with
  | none => s
  | some change =>
    let s1 :=
      if change.kind == ChangeKind.node then
        { s with nodes := revertNodes change s.nodes }
      else
        { s with edges := revertEdges change s.edges }
    { s1 with
      stagedChangeIds := s1.stagedChangeIds.filter (fun i => !(i == changeId)),
      pendingChanges :=
        s1.pendingChanges.filter (fun item => !(item.id == changeId)) }

/-- The baseline node of the C5 counterexample: its `data` carries no
`nodeType` key. -/
def revertBaselineNode : Node :=
  { id := "A", type := some "logic", data := [("label", JVal.str "x")] }

/-- The live node of the C5 witness. -/
def revertLiveNode : Node :=
  { id := "X", type := some "logic" }

/-- The baseline node of the C5 witness, absent from the live graph. -/
def revertGoneNode : Node :=
  { id := "Y", type := some "logic" }

/-! ### Theorems -/

/-! ### Supporting lemmas: JS-map lookup -/

theorem find?_key_eq_of_nodup {α : Type} {key : α → String} {l : List α}
    {k : String} {x : α} (hnd : (l.map key).Nodup) (hx : x ∈ l) (hk : key x = k) :
    l.find? (fun y => key y == k) = some x := by
  induction l with
  | nil => cases hx
  | cons a t ih =>
    simp only [List.map_cons, List.nodup_cons] at hnd
    rcases List.mem_cons.mp hx with rfl | hxt
    · simp [List.find?_cons, hk]
    · have hka : ¬ key a = k := by
        intro hek
        exact hnd.1 (hek ▸ hk ▸ List.mem_map_of_mem key hxt)
      have hka' : (key a == k) = false := beq_eq_false_iff_ne.mpr hka
      simp only [List.find?_cons, hka']
      exact ih hnd.2 hxt

theorem mapGet_eq_none_iff {α : Type} {key : α → String} {l : List α} {k : String} :
    mapGet key l k = none ↔ ∀ x ∈ l, key x ≠ k := by
  simp [mapGet, List.find?_eq_none]

theorem mapGet_eq_some_mem {α : Type} {key : α → String} {l : List α} {k : String}
    {x : α} (h : mapGet key l k = some x) : x ∈ l ∧ key x = k := by
  refine ⟨?_, ?_⟩
  · simpa using List.mem_of_find?_eq_some h
  · simpa using List.find?_some h

theorem mapGet_eq_some_of_nodup {α : Type} {key : α → String} {l : List α}
    {k : String} {x : α} (hnd : (l.map key).Nodup) (hx : x ∈ l) (hk : key x = k) :
    mapGet key l k = some x := by
  refine find?_key_eq_of_nodup ?_ (List.mem_reverse.mpr hx) hk
  rw [List.map_reverse]
  exact List.nodup_reverse.mpr hnd

theorem mapGet_isSome_iff {α : Type} {key : α → String} {l : List α} {k : String} :
    (mapGet key l k).isSome ↔ ∃ x ∈ l, key x = k := by
  cases h : mapGet key l k with
  | none =>
    simp only [Option.isSome_none, Bool.false_eq_true, false_iff]
    rintro ⟨x, hx, hk⟩
    exact (mapGet_eq_none_iff.mp h) x hx hk
  | some x =>
    simp only [Option.isSome_some, true_iff]
    obtain ⟨hx, hk⟩ := mapGet_eq_some_mem h
    exact ⟨x, hx, hk⟩

theorem mapGet_congr_perm {α : Type} {key : α → String} {l l' : List α}
    (hp : l.Perm l') (hnd : (l.map key).Nodup) (k : String) :
    mapGet key l k = mapGet key l' k := by
  have hnd' : (l'.map key).Nodup := hnd.perm (hp.map key)
  cases h : mapGet key l k with
  | none =>
    cases h' : mapGet key l' k with
    | none => rfl
    | some x =>
      obtain ⟨hx, hk⟩ := mapGet_eq_some_mem h'
      exact absurd hk ((mapGet_eq_none_iff.mp h) x (hp.symm.subset hx))
  | some x =>
    obtain ⟨hx, hk⟩ := mapGet_eq_some_mem h
    exact (mapGet_eq_some_of_nodup hnd' (hp.subset hx) hk).symm

/-! ### Supporting lemmas: the sort comparator is a total preorder whose
ties force equal (kind, id) keys -/

theorem charListLE_total : ∀ a b : List Char, charListLE a b || charListLE b a
  | [], _ => by cases ‹List Char› <;> simp [charListLE]
  | _ :: _, [] => by simp [charListLE]
  | a :: as, b :: bs => by
    by_cases hab : a = b
    · subst hab
      simpa [charListLE] using charListLE_total as bs
    · have hne : a.toNat ≠ b.toNat := by
        intro h
        exact hab (Char.ext (UInt32.ext (by simpa [Char.toNat] using h)))
      have hba : ¬ b = a := fun h => hab h.symm
      rcases Nat.lt_or_ge a.toNat b.toNat with h | h
      · simp [charListLE, hab, h]
      · have : b.toNat < a.toNat := Nat.lt_of_le_of_ne h (fun h' => hne h'.symm)
        simp [charListLE, hab, hba, this]

theorem charListLE_trans :
    ∀ a b c : List Char, charListLE a b → charListLE b c → charListLE a c
  | [], _, _, _, _ => by cases ‹List Char› <;> simp [charListLE]
  | _ :: _, [], _, h, _ => by simp [charListLE] at h
  | _ :: _, _ :: _, [], _, h => by simp [charListLE] at h
  | a :: as, b :: bs, c :: cs, h₁, h₂ => by
    by_cases hab : a = b <;> by_cases hbc : b = c
    · subst hab; subst hbc
      simp only [charListLE, beq_self_eq_true, if_pos] at h₁ h₂ ⊢
      exact charListLE_trans as bs cs h₁ h₂
    · subst hab
      simp only [charListLE, beq_self_eq_true, if_pos] at h₁
      simp [charListLE, hbc] at h₂ ⊢
      exact h₂
    · subst hbc
      simp [charListLE, hab] at h₁ ⊢
      exact h₁
    · simp [charListLE, hab, hbc] at h₁ h₂
      have hac : a.toNat < c.toNat := Nat.lt_trans h₁ h₂
      have : ¬ a = c := by
        intro h; subst h; exact Nat.lt_irrefl _ hac
      simp [charListLE, this, hac]

theorem charListLE_antisymm :
    ∀ a b : List Char, charListLE a b → charListLE b a → a = b
  | [], [], _, _ => rfl
  | [], _ :: _, _, h => by simp [charListLE] at h
  | _ :: _, [], h, _ => by simp [charListLE] at h
  | a :: as, b :: bs, h₁, h₂ => by
    by_cases hab : a = b
    · subst hab
      simp only [charListLE, beq_self_eq_true, if_pos] at h₁ h₂
      rw [charListLE_antisymm as bs h₁ h₂]
    · have hba : ¬ b = a := fun h => hab h.symm
      simp [charListLE, hab, hba] at h₁ h₂
      exact absurd (Nat.lt_trans h₁ h₂) (Nat.lt_irrefl _)

theorem strLE_total (a b : String) : strLE a b || strLE b a :=
  charListLE_total a.data b.data

theorem strLE_trans {a b c : String} (h₁ : strLE a b) (h₂ : strLE b c) :
    strLE a c :=
  charListLE_trans a.data b.data c.data h₁ h₂

theorem strLE_antisymm {a b : String} (h₁ : strLE a b) (h₂ : strLE b a) :
    a = b :=
  String.ext (charListLE_antisymm a.data b.data h₁ h₂)

theorem strLE_refl (a : String) : strLE a a := by
  have := strLE_total a a
  simpa using this

theorem changeLE_total (a b : PendingChange) : changeLE a b || changeLE b a := by
  cases ha : a.kind <;> cases hb : b.kind <;>
    simp [changeLE, ha, hb, strLE_total]

theorem changeLE_trans {a b c : PendingChange}
    (h₁ : changeLE a b) (h₂ : changeLE b c) : changeLE a c := by
  cases ha : a.kind <;> cases hb : b.kind <;> cases hc : c.kind <;>
    simp_all [changeLE, ha, hb, hc] <;> exact strLE_trans h₁ h₂

theorem changeLE_antisymm_key {a b : PendingChange}
    (h₁ : changeLE a b) (h₂ : changeLE b a) : a.kind = b.kind ∧ a.id = b.id := by
  cases ha : a.kind <;> cases hb : b.kind <;>
    simp_all [changeLE, ha, hb] <;> exact strLE_antisymm h₁ h₂

/-! ### Supporting lemmas: characterizing the four diff passes -/

theorem nodeUpsertAt_eq_some_iff {base : List Node} {n : Node} {c : PendingChange} :
    nodeUpsertAt base n = some c ↔
      (mapGet Node.id base n.id = none ∧ c = addedNodeChange n) ∨
      (∃ p, mapGet Node.id base n.id = some p ∧ isNodeEqual n p = false ∧
        c = modifiedNodeChange n p) := by
  unfold nodeUpsertAt
  cases hmg : mapGet Node.id base n.id with
  | none =>
    simp
    exact eq_comm
  | some p =>
    cases he : isNodeEqual n p <;> simp [he]
    exact eq_comm

theorem nodeRemovalAt_eq_some_iff {nodes : List Node} {p : Node} {c : PendingChange} :
    nodeRemovalAt nodes p = some c ↔
      mapGet Node.id nodes p.id = none ∧ c = removedNodeChange p := by
  unfold nodeRemovalAt
  cases hmg : mapGet Node.id nodes p.id <;> simp [hmg, eq_comm]

theorem edgeUpsertAt_eq_some_iff {base : List Edge} {e : Edge} {c : PendingChange} :
    edgeUpsertAt base e = some c ↔
      (mapGet Edge.id base e.id = none ∧ c = addedEdgeChange e) ∨
      (∃ p, mapGet Edge.id base e.id = some p ∧ isEdgeEqual e p = false ∧
        c = modifiedEdgeChange e p) := by
  unfold edgeUpsertAt
  cases hmg : mapGet Edge.id base e.id with
  | none =>
    simp
    exact eq_comm
  | some p =>
    cases he : isEdgeEqual e p <;> simp [he]
    exact eq_comm

theorem edgeRemovalAt_eq_some_iff {edges : List Edge} {p : Edge} {c : PendingChange} :
    edgeRemovalAt edges p = some c ↔
      mapGet Edge.id edges p.id = none ∧ c = removedEdgeChange p := by
  unfold edgeRemovalAt
  cases hmg : mapGet Edge.id edges p.id <;> simp [hmg, eq_comm]

theorem nodeUpsertAt_shape {base : List Node} {n : Node} {c : PendingChange}
    (h : nodeUpsertAt base n = some c) :
    c.kind = ChangeKind.node ∧ c.id = nodeChangeId n.id ∧ c.nodeId = some n.id := by
  rcases nodeUpsertAt_eq_some_iff.mp h with ⟨_, rfl⟩ | ⟨p, _, _, rfl⟩ <;>
    simp [addedNodeChange, modifiedNodeChange]

theorem nodeRemovalAt_shape {nodes : List Node} {p : Node} {c : PendingChange}
    (h : nodeRemovalAt nodes p = some c) :
    c.kind = ChangeKind.node ∧ c.id = nodeChangeId p.id ∧ c.nodeId = some p.id := by
  rcases nodeRemovalAt_eq_some_iff.mp h with ⟨_, rfl⟩
  simp [removedNodeChange]

theorem edgeUpsertAt_shape {base : List Edge} {e : Edge} {c : PendingChange}
    (h : edgeUpsertAt base e = some c) :
    c.kind = ChangeKind.edge ∧ c.id = edgeChangeId e.id ∧ c.edgeId = some e.id := by
  rcases edgeUpsertAt_eq_some_iff.mp h with ⟨_, rfl⟩ | ⟨p, _, _, rfl⟩ <;>
    simp [addedEdgeChange, modifiedEdgeChange]

theorem edgeRemovalAt_shape {edges : List Edge} {p : Edge} {c : PendingChange}
    (h : edgeRemovalAt edges p = some c) :
    c.kind = ChangeKind.edge ∧ c.id = edgeChangeId p.id ∧ c.edgeId = some p.id := by
  rcases edgeRemovalAt_eq_some_iff.mp h with ⟨_, rfl⟩
  simp [removedEdgeChange]

theorem nodeChangeId_inj {a b : String} (h : nodeChangeId a = nodeChangeId b) :
    a = b := by
  have hd := congrArg String.data h
  rw [nodeChangeId, nodeChangeId, String.data_append, String.data_append] at hd
  exact String.ext (List.append_cancel_left hd)

theorem edgeChangeId_inj {a b : String} (h : edgeChangeId a = edgeChangeId b) :
    a = b := by
  have hd := congrArg String.data h
  rw [edgeChangeId, edgeChangeId, String.data_append, String.data_append] at hd
  exact String.ext (List.append_cancel_left hd)

theorem nodeChangeId_ne_edgeChangeId (a b : String) :
    nodeChangeId a ≠ edgeChangeId b := by
  intro h
  have hd := congrArg String.data h
  rw [nodeChangeId, edgeChangeId, String.data_append, String.data_append,
    show ("node:" : String).data = ['n', 'o', 'd', 'e', ':'] from rfl,
    show ("edge:" : String).data = ['e', 'd', 'g', 'e', ':'] from rfl] at hd
  simp at hd

/-- In a list with duplicate-free keys, two members with the same key coincide. -/
theorem eq_of_mem_nodup_keys {α : Type} {key : α → String} {l : List α} {x y : α}
    (hnd : (l.map key).Nodup) (hx : x ∈ l) (hy : y ∈ l) (hk : key x = key y) :
    x = y := by
  have h₁ := mapGet_eq_some_of_nodup hnd hx hk
  have h₂ := mapGet_eq_some_of_nodup hnd hy rfl
  rw [h₁] at h₂
  exact Option.some_inj.mp h₂

theorem sameKey_symm {a b : PendingChange} (h : sameKey a b) : sameKey b a :=
  ⟨h.1.symm, h.2.symm⟩

theorem not_sameKey_symmetric :
    Symmetric (fun a b : PendingChange => ¬ sameKey a b) :=
  fun _ _ h hk => h (sameKey_symm hk)

theorem changeLE_cases {a b : PendingChange} (h : changeLE a b = true) :
    (a.kind = ChangeKind.node ∧ b.kind = ChangeKind.edge) ∨
    (a.kind = b.kind ∧ strLE a.id b.id = true) := by
  cases ha : a.kind <;> cases hb : b.kind <;> simp_all [changeLE]

theorem rawChanges_pairwise_key {nodes bn : List Node} {edges be : List Edge}
    (hn : (nodes.map Node.id).Nodup) (hbn : (bn.map Node.id).Nodup)
    (he : (edges.map Edge.id).Nodup) (hbe : (be.map Edge.id).Nodup) :
    (rawChanges nodes edges bn be).Pairwise (fun a b => ¬ sameKey a b) := by
  have hnodeedge : ∀ c d : PendingChange, c.kind = ChangeKind.node →
      d.kind = ChangeKind.edge → ¬ sameKey c d := by
    intro c d hc hd hk
    rw [hk.1, hd] at hc
    cases hc
  have hA : (nodes.filterMap (nodeUpsertAt bn)).Pairwise (fun a b => ¬ sameKey a b) := by
    rw [List.pairwise_filterMap]
    refine (List.pairwise_map.mp hn).imp ?_
    intro n m hne c hc d hd hk
    obtain ⟨_, hcid, _⟩ := nodeUpsertAt_shape hc
    obtain ⟨_, hdid, _⟩ := nodeUpsertAt_shape hd
    exact hne (nodeChangeId_inj (hcid ▸ hdid ▸ hk.2))
  have hB : (bn.filterMap (nodeRemovalAt nodes)).Pairwise (fun a b => ¬ sameKey a b) := by
    rw [List.pairwise_filterMap]
    refine (List.pairwise_map.mp hbn).imp ?_
    intro n m hne c hc d hd hk
    obtain ⟨_, hcid, _⟩ := nodeRemovalAt_shape hc
    obtain ⟨_, hdid, _⟩ := nodeRemovalAt_shape hd
    exact hne (nodeChangeId_inj (hcid ▸ hdid ▸ hk.2))
  have hC : (edges.filterMap (edgeUpsertAt be)).Pairwise (fun a b => ¬ sameKey a b) := by
    rw [List.pairwise_filterMap]
    refine (List.pairwise_map.mp he).imp ?_
    intro n m hne c hc d hd hk
    obtain ⟨_, hcid, _⟩ := edgeUpsertAt_shape hc
    obtain ⟨_, hdid, _⟩ := edgeUpsertAt_shape hd
    exact hne (edgeChangeId_inj (hcid ▸ hdid ▸ hk.2))
  have hD : (be.filterMap (edgeRemovalAt edges)).Pairwise (fun a b => ¬ sameKey a b) := by
    rw [List.pairwise_filterMap]
    refine (List.pairwise_map.mp hbe).imp ?_
    intro n m hne c hc d hd hk
    obtain ⟨_, hcid, _⟩ := edgeRemovalAt_shape hc
    obtain ⟨_, hdid, _⟩ := edgeRemovalAt_shape hd
    exact hne (edgeChangeId_inj (hcid ▸ hdid ▸ hk.2))
  have hAB : ∀ c ∈ nodes.filterMap (nodeUpsertAt bn),
      ∀ d ∈ bn.filterMap (nodeRemovalAt nodes), ¬ sameKey c d := by
    intro c hc d hd hk
    obtain ⟨n, hnmem, hfn⟩ := List.mem_filterMap.mp hc
    obtain ⟨p, hpmem, hfp⟩ := List.mem_filterMap.mp hd
    obtain ⟨hmg, rfl⟩ := nodeRemovalAt_eq_some_iff.mp hfp
    obtain ⟨_, hcid, _⟩ := nodeUpsertAt_shape hfn
    have hid : n.id = p.id := by
      apply nodeChangeId_inj
      rw [← hcid, hk.2]
      rfl
    exact (mapGet_eq_none_iff.mp hmg) n hnmem hid
  have hCD : ∀ c ∈ edges.filterMap (edgeUpsertAt be),
      ∀ d ∈ be.filterMap (edgeRemovalAt edges), ¬ sameKey c d := by
    intro c hc d hd hk
    obtain ⟨n, hnmem, hfn⟩ := List.mem_filterMap.mp hc
    obtain ⟨p, hpmem, hfp⟩ := List.mem_filterMap.mp hd
    obtain ⟨hmg, rfl⟩ := edgeRemovalAt_eq_some_iff.mp hfp
    obtain ⟨_, hcid, _⟩ := edgeUpsertAt_shape hfn
    have hid : n.id = p.id := by
      apply edgeChangeId_inj
      rw [← hcid, hk.2]
      rfl
    exact (mapGet_eq_none_iff.mp hmg) n hnmem hid
  have hkindA : ∀ c ∈ nodes.filterMap (nodeUpsertAt bn), c.kind = ChangeKind.node := by
    intro c hc
    obtain ⟨n, _, hfn⟩ := List.mem_filterMap.mp hc
    exact (nodeUpsertAt_shape hfn).1
  have hkindB : ∀ c ∈ bn.filterMap (nodeRemovalAt nodes), c.kind = ChangeKind.node := by
    intro c hc
    obtain ⟨n, _, hfn⟩ := List.mem_filterMap.mp hc
    exact (nodeRemovalAt_shape hfn).1
  have hkindC : ∀ c ∈ edges.filterMap (edgeUpsertAt be), c.kind = ChangeKind.edge := by
    intro c hc
    obtain ⟨n, _, hfn⟩ := List.mem_filterMap.mp hc
    exact (edgeUpsertAt_shape hfn).1
  have hkindD : ∀ c ∈ be.filterMap (edgeRemovalAt edges), c.kind = ChangeKind.edge := by
    intro c hc
    obtain ⟨n, _, hfn⟩ := List.mem_filterMap.mp hc
    exact (edgeRemovalAt_shape hfn).1
  unfold rawChanges
  simp only [List.append_assoc]
  refine List.pairwise_append.mpr ⟨?_, ?_, ?_⟩
  · exact hA
  · refine List.pairwise_append.mpr ⟨hB, List.pairwise_append.mpr ⟨hC, hD, hCD⟩, ?_⟩
    intro a ha b hb
    rcases List.mem_append.mp hb with hb | hb
    · exact hnodeedge a b (hkindB a ha) (hkindC b hb)
    · exact hnodeedge a b (hkindB a ha) (hkindD b hb)
  · intro a ha b hb
    rcases List.mem_append.mp hb with hb | hb
    · exact hAB a ha b hb
    rcases List.mem_append.mp hb with hb | hb
    · exact hnodeedge a b (hkindA a ha) (hkindC b hb)
    · exact hnodeedge a b (hkindA a ha) (hkindD b hb)

/-- Two sorted lists that are permutations of each other and have pairwise
distinct (kind, id) keys are equal. -/
theorem eq_of_perm_of_sorted_key :
    ∀ {l₁ l₂ : List PendingChange}, l₁.Perm l₂ →
      l₁.Pairwise (fun a b => changeLE a b = true) →
      l₂.Pairwise (fun a b => changeLE a b = true) →
      l₁.Pairwise (fun a b => ¬ sameKey a b) → l₁ = l₂ := by
  intro l₁
  induction l₁ with
  | nil =>
    intro l₂ hp _ _ _
    exact (hp.symm.eq_nil).symm
  | cons a t₁ ih =>
    intro l₂ hp hs₁ hs₂ hd
    cases l₂ with
    | nil => exact absurd hp.eq_nil (by simp)
    | cons b t₂ =>
      have hab : a = b := by
        by_contra hne
        have hat₂ : a ∈ t₂ := by
          rcases List.mem_cons.mp (hp.subset (List.mem_cons_self a t₁)) with h | h
          · exact absurd h hne
          · exact h
        have hbt₁ : b ∈ t₁ := by
          rcases List.mem_cons.mp (hp.symm.subset (List.mem_cons_self b t₂)) with h | h
          · exact absurd h.symm hne
          · exact h
        have h₁ : changeLE a b = true := List.rel_of_pairwise_cons hs₁ hbt₁
        have h₂ : changeLE b a = true := List.rel_of_pairwise_cons hs₂ hat₂
        exact (List.rel_of_pairwise_cons hd hbt₁) (changeLE_antisymm_key h₁ h₂)
      subst hab
      rw [ih hp.cons_inv (List.Pairwise.of_cons hs₁) (List.Pairwise.of_cons hs₂)
        (List.Pairwise.of_cons hd)]

theorem nodeUpsertAt_congr {bn bn' : List Node} (hp : bn.Perm bn')
    (hnd : (bn.map Node.id).Nodup) (n : Node) :
    nodeUpsertAt bn' n = nodeUpsertAt bn n := by
  unfold nodeUpsertAt
  rw [← mapGet_congr_perm hp hnd n.id]

theorem nodeRemovalAt_congr {nodes nodes' : List Node} (hp : nodes.Perm nodes')
    (hnd : (nodes.map Node.id).Nodup) (p : Node) :
    nodeRemovalAt nodes' p = nodeRemovalAt nodes p := by
  unfold nodeRemovalAt
  rw [← mapGet_congr_perm hp hnd p.id]

theorem edgeUpsertAt_congr {be be' : List Edge} (hp : be.Perm be')
    (hnd : (be.map Edge.id).Nodup) (e : Edge) :
    edgeUpsertAt be' e = edgeUpsertAt be e := by
  unfold edgeUpsertAt
  rw [← mapGet_congr_perm hp hnd e.id]

theorem edgeRemovalAt_congr {edges edges' : List Edge} (hp : edges.Perm edges')
    (hnd : (edges.map Edge.id).Nodup) (p : Edge) :
    edgeRemovalAt edges' p = edgeRemovalAt edges p := by
  unfold edgeRemovalAt
  rw [← mapGet_congr_perm hp hnd p.id]

theorem rawChanges_perm {nodes nodes' bn bn' : List Node}
    {edges edges' be be' : List Edge}
    (hpn : nodes.Perm nodes') (hpbn : bn.Perm bn')
    (hpe : edges.Perm edges') (hpbe : be.Perm be')
    (hn : (nodes.map Node.id).Nodup) (hbn : (bn.map Node.id).Nodup)
    (he : (edges.map Edge.id).Nodup) (hbe : (be.map Edge.id).Nodup) :
    (rawChanges nodes' edges' bn' be').Perm (rawChanges nodes edges bn be) := by
  unfold rawChanges
  refine List.Perm.append (List.Perm.append (List.Perm.append ?_ ?_) ?_) ?_
  · rw [List.filterMap_congr (fun x _ => nodeUpsertAt_congr hpbn hbn x)]
    exact hpn.symm.filterMap _
  · rw [List.filterMap_congr (fun x _ => nodeRemovalAt_congr hpn hn x)]
    exact hpbn.symm.filterMap _
  · rw [List.filterMap_congr (fun x _ => edgeUpsertAt_congr hpbe hbe x)]
    exact hpe.symm.filterMap _
  · rw [List.filterMap_congr (fun x _ => edgeRemovalAt_congr hpe he x)]
    exact hpbe.symm.filterMap _

/-- A node that is loose-equal to its baseline mate contributes no diff entry
under its change id. -/
theorem no_node_entry_of_equal {nodes bn : List Node} {edges be : List Edge}
    (hn : (nodes.map Node.id).Nodup) {n : Node} (hmem : n ∈ nodes) {p : Node}
    (hmg : mapGet Node.id bn n.id = some p) (heq : isNodeEqual n p = true) :
    ∀ c ∈ computePendingChanges nodes edges bn be, c.id ≠ nodeChangeId n.id := by
  intro c hc hid
  have hraw : c ∈ rawChanges nodes edges bn be := List.mem_mergeSort.mp hc
  unfold rawChanges at hraw
  simp only [List.append_assoc, List.mem_append] at hraw
  rcases hraw with hA | hB | hC | hD
  · obtain ⟨m, hmmem, hfm⟩ := List.mem_filterMap.mp hA
    obtain ⟨_, hcid, _⟩ := nodeUpsertAt_shape hfm
    have hmid : m.id = n.id := nodeChangeId_inj (hcid ▸ hid)
    have hmn : m = n := eq_of_mem_nodup_keys hn hmmem hmem hmid
    subst hmn
    rcases nodeUpsertAt_eq_some_iff.mp hfm with ⟨hnone, _⟩ | ⟨q, hq, hne, _⟩
    · rw [hmg] at hnone
      cases hnone
    · rw [hmg] at hq
      rw [Option.some_inj.mp hq] at heq
      rw [heq] at hne
      cases hne
  · obtain ⟨q, hqmem, hfq⟩ := List.mem_filterMap.mp hB
    obtain ⟨hnone, rfl⟩ := nodeRemovalAt_eq_some_iff.mp hfq
    have hqid : q.id = n.id := nodeChangeId_inj hid
    exact (mapGet_eq_none_iff.mp hnone) n hmem (hqid ▸ rfl)
  · obtain ⟨e, _, hfe⟩ := List.mem_filterMap.mp hC
    obtain ⟨_, hcid, _⟩ := edgeUpsertAt_shape hfe
    exact nodeChangeId_ne_edgeChangeId n.id e.id (hid.symm.trans hcid)
  · obtain ⟨q, _, hfq⟩ := List.mem_filterMap.mp hD
    obtain ⟨_, hcid, _⟩ := edgeRemovalAt_shape hfq
    exact nodeChangeId_ne_edgeChangeId n.id q.id (hid.symm.trans hcid)

/-- An edge that is loose-equal to its baseline mate contributes no diff entry
under its change id. -/
theorem no_edge_entry_of_equal {nodes bn : List Node} {edges be : List Edge}
    (he : (edges.map Edge.id).Nodup) {e : Edge} (hmem : e ∈ edges) {p : Edge}
    (hmg : mapGet Edge.id be e.id = some p) (heq : isEdgeEqual e p = true) :
    ∀ c ∈ computePendingChanges nodes edges bn be, c.id ≠ edgeChangeId e.id := by
  intro c hc hid
  have hraw : c ∈ rawChanges nodes edges bn be := List.mem_mergeSort.mp hc
  unfold rawChanges at hraw
  simp only [List.append_assoc, List.mem_append] at hraw
  rcases hraw with hA | hB | hC | hD
  · obtain ⟨m, _, hfm⟩ := List.mem_filterMap.mp hA
    obtain ⟨_, hcid, _⟩ := nodeUpsertAt_shape hfm
    exact nodeChangeId_ne_edgeChangeId m.id e.id (hcid ▸ hid)
  · obtain ⟨q, _, hfq⟩ := List.mem_filterMap.mp hB
    obtain ⟨_, hcid, _⟩ := nodeRemovalAt_shape hfq
    exact nodeChangeId_ne_edgeChangeId q.id e.id (hcid ▸ hid)
  · obtain ⟨m, hmmem, hfm⟩ := List.mem_filterMap.mp hC
    obtain ⟨_, hcid, _⟩ := edgeUpsertAt_shape hfm
    have hmid : m.id = e.id := edgeChangeId_inj (hcid ▸ hid)
    have hmn : m = e := eq_of_mem_nodup_keys he hmmem hmem hmid
    subst hmn
    rcases edgeUpsertAt_eq_some_iff.mp hfm with ⟨hnone, _⟩ | ⟨q, hq, hne, _⟩
    · rw [hmg] at hnone
      cases hnone
    · rw [hmg] at hq
      rw [Option.some_inj.mp hq] at heq
      rw [heq] at hne
      cases hne
  · obtain ⟨q, hqmem, hfq⟩ := List.mem_filterMap.mp hD
    obtain ⟨hnone, rfl⟩ := edgeRemovalAt_eq_some_iff.mp hfq
    have hqid : q.id = e.id := edgeChangeId_inj hid
    exact (mapGet_eq_none_iff.mp hnone) e hmem (hqid ▸ rfl)

/-- C3: `computePendingChanges` emits an `added` change for each current
entity absent from the baseline id-map, a `modified` change for each entity
present on both sides but loosely-unequal, a `removed` change for each
baseline entity absent from the current map, and no entry for loose-equal
entities; node changes come before edge changes and each kind is sorted
lexicographically by change id; the function is deterministic and, on
duplicate-free ids, independent of input insertion order. -/
theorem computePendingChanges_spec
    (nodes bn : List Node) (edges be : List Edge)
    (hn : (nodes.map Node.id).Nodup) (hbn : (bn.map Node.id).Nodup)
    (he : (edges.map Edge.id).Nodup) (hbe : (be.map Edge.id).Nodup) :
    (∀ n ∈ nodes, mapGet Node.id bn n.id = none →
      addedNodeChange n ∈ computePendingChanges nodes edges bn be) ∧
    (∀ n ∈ nodes, ∀ p, mapGet Node.id bn n.id = some p →
      isNodeEqual n p = false →
      modifiedNodeChange n p ∈ computePendingChanges nodes edges bn be) ∧
    (∀ p ∈ bn, mapGet Node.id nodes p.id = none →
      removedNodeChange p ∈ computePendingChanges nodes edges bn be) ∧
    (∀ n ∈ nodes, ∀ p, mapGet Node.id bn n.id = some p →
      isNodeEqual n p = true →
      ∀ c ∈ computePendingChanges nodes edges bn be, c.id ≠ nodeChangeId n.id) ∧
    (∀ e ∈ edges, mapGet Edge.id be e.id = none →
      addedEdgeChange e ∈ computePendingChanges nodes edges bn be) ∧
    (∀ e ∈ edges, ∀ p, mapGet Edge.id be e.id = some p →
      isEdgeEqual e p = false →
      modifiedEdgeChange e p ∈ computePendingChanges nodes edges bn be) ∧
    (∀ p ∈ be, mapGet Edge.id edges p.id = none →
      removedEdgeChange p ∈ computePendingChanges nodes edges bn be) ∧
    (∀ e ∈ edges, ∀ p, mapGet Edge.id be e.id = some p →
      isEdgeEqual e p = true →
      ∀ c ∈ computePendingChanges nodes edges bn be, c.id ≠ edgeChangeId e.id) ∧
    (computePendingChanges nodes edges bn be).Pairwise
      (fun a b => (a.kind = ChangeKind.node ∧ b.kind = ChangeKind.edge) ∨
        (a.kind = b.kind ∧ strLE a.id b.id = true)) ∧
    (∀ nodes' bn' edges' be', nodes.Perm nodes' → bn.Perm bn' →
      edges.Perm edges' → be.Perm be' →
      computePendingChanges nodes' edges' bn' be' =
        computePendingChanges nodes edges bn be) := by
  have hmemraw : ∀ c : PendingChange,
      c ∈ computePendingChanges nodes edges bn be ↔
        c ∈ rawChanges nodes edges bn be := fun c => List.mem_mergeSort
  have hsorted : ∀ l : List PendingChange,
      (l.mergeSort changeLE).Pairwise (fun a b => changeLE a b = true) :=
    @List.sorted_mergeSort _ changeLE (fun a b c h₁ h₂ => changeLE_trans h₁ h₂)
      changeLE_total
  have hrawmem : ∀ c : PendingChange,
      c ∈ rawChanges nodes edges bn be ↔
        (c ∈ nodes.filterMap (nodeUpsertAt bn) ∨
          c ∈ bn.filterMap (nodeRemovalAt nodes) ∨
          c ∈ edges.filterMap (edgeUpsertAt be) ∨
          c ∈ be.filterMap (edgeRemovalAt edges)) := by
    intro c
    unfold rawChanges
    simp [List.mem_append]
  refine ⟨?_, ?_, ?_, ?_, ?_, ?_, ?_, ?_, ?_, ?_⟩
  · intro n hmem hmg
    refine (hmemraw _).mpr ((hrawmem _).mpr (Or.inl ?_))
    exact List.mem_filterMap.mpr ⟨n, hmem, by unfold nodeUpsertAt; rw [hmg]⟩
  · intro n hmem p hmg hne
    refine (hmemraw _).mpr ((hrawmem _).mpr (Or.inl ?_))
    refine List.mem_filterMap.mpr ⟨n, hmem, ?_⟩
    unfold nodeUpsertAt
    rw [hmg]
    simp [hne]
  · intro p hmem hmg
    refine (hmemraw _).mpr ((hrawmem _).mpr (Or.inr (Or.inl ?_)))
    refine List.mem_filterMap.mpr ⟨p, hmem, ?_⟩
    unfold nodeRemovalAt
    rw [hmg]
    simp
  · intro n hmem p hmg heq
    exact no_node_entry_of_equal hn hmem hmg heq
  · intro e hmem hmg
    refine (hmemraw _).mpr ((hrawmem _).mpr (Or.inr (Or.inr (Or.inl ?_))))
    exact List.mem_filterMap.mpr ⟨e, hmem, by unfold edgeUpsertAt; rw [hmg]⟩
  · intro e hmem p hmg hne
    refine (hmemraw _).mpr ((hrawmem _).mpr (Or.inr (Or.inr (Or.inl ?_))))
    refine List.mem_filterMap.mpr ⟨e, hmem, ?_⟩
    unfold edgeUpsertAt
    rw [hmg]
    simp [hne]
  · intro p hmem hmg
    refine (hmemraw _).mpr ((hrawmem _).mpr (Or.inr (Or.inr (Or.inr ?_))))
    refine List.mem_filterMap.mpr ⟨p, hmem, ?_⟩
    unfold edgeRemovalAt
    rw [hmg]
    simp
  · intro e hmem p hmg heq
    exact no_edge_entry_of_equal he hmem hmg heq
  · exact (hsorted (rawChanges nodes edges bn be)).imp (fun h => changeLE_cases h)
  · intro nodes' bn' edges' be' hpn hpbn hpe hpbe
    have hrawperm := rawChanges_perm hpn hpbn hpe hpbe hn hbn he hbe
    have hperm : (computePendingChanges nodes' edges' bn' be').Perm
        (computePendingChanges nodes edges bn be) :=
      (List.mergeSort_perm _ changeLE).trans
        (hrawperm.trans (List.mergeSort_perm _ changeLE).symm)
    have hkey : (computePendingChanges nodes edges bn be).Pairwise
        (fun a b => ¬ sameKey a b) :=
      ((List.mergeSort_perm _ changeLE).pairwise_iff
        (fun h hk => h (sameKey_symm hk))).mpr
        (rawChanges_pairwise_key hn hbn he hbe)
    have hkey' : (computePendingChanges nodes' edges' bn' be').Pairwise
        (fun a b => ¬ sameKey a b) :=
      (hperm.pairwise_iff (fun h hk => h (sameKey_symm hk))).mpr hkey
    exact eq_of_perm_of_sorted_key hperm (hsorted _) (hsorted _) hkey'

/-- Witness for C3 at the concrete scenario of spec §8.7: live graph
`[B, A{label:y}]` against baseline `[A{label:x}]`. -/
theorem computePendingChanges_spec_witness :
    modifiedNodeChange sampleNodeA2 sampleNodeA ∈
      computePendingChanges [sampleNodeB, sampleNodeA2] [] [sampleNodeA] [] ∧
    addedNodeChange sampleNodeB ∈
      computePendingChanges [sampleNodeB, sampleNodeA2] [] [sampleNodeA] [] :=
  ⟨(computePendingChanges_spec [sampleNodeB, sampleNodeA2] [sampleNodeA] [] []
      (by decide) (by decide) (by decide) (by decide)).2.1 sampleNodeA2
      (by decide) sampleNodeA (by decide) (by decide),
   (computePendingChanges_spec [sampleNodeB, sampleNodeA2] [sampleNodeA] [] []
      (by decide) (by decide) (by decide) (by decide)).1 sampleNodeB
      (by decide) (by decide)⟩

/-- The fold of the reconciliation effect never pushes an id that was seen. -/
theorem reconcile_fold_not_mem {seen : List String} {id : String}
    (hseen : id ∈ seen) :
    ∀ (P acc : List String), id ∉ acc →
      id ∉ P.foldl
        (fun next i =>
          if (!seen.contains i && !next.contains i) then next ++ [i] else next)
        acc := by
  intro P
  induction P with
  | nil => intro acc hacc; exact hacc
  | cons i P ih =>
    intro acc hacc
    simp only [List.foldl_cons]
    by_cases hpush : (!seen.contains i && !acc.contains i) = true
    · rw [if_pos hpush]
      refine ih _ ?_
      intro hmem
      rcases List.mem_append.mp hmem with h | h
      · exact hacc h
      · have : id = i := by simpa using h
        subst this
        simp only [Bool.and_eq_true, Bool.not_eq_true'] at hpush
        have hc : seen.contains id = true := by simpa [List.elem_iff] using hseen
        simp [hc] at hpush
        exact hpush.1 hseen
    · rw [if_neg hpush]
      exact ih _ hacc

/-- The fold of the reconciliation effect only ever appends. -/
theorem reconcile_fold_mono {seen : List String} {id : String} :
    ∀ (P acc : List String), id ∈ acc →
      id ∈ P.foldl
        (fun next i =>
          if (!seen.contains i && !next.contains i) then next ++ [i] else next)
        acc := by
  intro P
  induction P with
  | nil => intro acc hacc; exact hacc
  | cons i P ih =>
    intro acc hacc
    simp only [List.foldl_cons]
    by_cases hpush : (!seen.contains i && !acc.contains i) = true
    · rw [if_pos hpush]
      exact ih _ (List.mem_append_left _ hacc)
    · rw [if_neg hpush]
      exact ih _ hacc

/-- The fold pushes every unseen pending id. -/
theorem reconcile_fold_stages {seen : List String} {id : String}
    (hseen : id ∉ seen) :
    ∀ (P acc : List String), id ∈ P →
      id ∈ P.foldl
        (fun next i =>
          if (!seen.contains i && !next.contains i) then next ++ [i] else next)
        acc := by
  intro P
  induction P with
  | nil => intro acc hacc; cases hacc
  | cons i P ih =>
    intro acc hid
    simp only [List.foldl_cons]
    rcases List.mem_cons.mp hid with rfl | hid'
    · by_cases hin : id ∈ acc
      · by_cases hpush : (!seen.contains id && !acc.contains id) = true
        · rw [if_pos hpush]
          exact reconcile_fold_mono _ _ (List.mem_append_left _ hin)
        · rw [if_neg hpush]
          exact reconcile_fold_mono _ _ hin
      · have hpush : (!seen.contains id && !acc.contains id) = true := by
          simp only [Bool.and_eq_true, Bool.not_eq_true']
          constructor
          · exact (Bool.not_eq_true _).mp (by simpa [List.elem_iff] using hseen)
          · exact (Bool.not_eq_true _).mp (by simpa [List.elem_iff] using hin)
        rw [if_pos hpush]
        exact reconcile_fold_mono _ _ (List.mem_append_right _ (by simp))
    · by_cases hpush : (!seen.contains i && !acc.contains i) = true
      · rw [if_pos hpush]
        exact ih _ hid'
      · rw [if_neg hpush]
        exact ih _ hid'

theorem reconcile_seen (P : List String) (s : StagingState) :
    (reconcile P s).seen = P := rfl

/-- A seen, unstaged id stays unstaged across one reconciliation. -/
theorem reconcile_sticky_step {P : List String} {s : StagingState} {id : String}
    (hseen : id ∈ s.seen) (hstaged : id ∉ s.staged) :
    id ∉ (reconcile P s).staged := by
  refine reconcile_fold_not_mem hseen P _ ?_
  intro hmem
  exact hstaged (List.mem_of_mem_filter hmem)

/-- A seen, unstaged id stays unstaged across any run of reconciliations whose
pending lists all keep containing it. -/
theorem reconcile_sticky {Ps : List (List String)} {s : StagingState} {id : String}
    (hseen : id ∈ s.seen) (hstaged : id ∉ s.staged) (hP : ∀ P ∈ Ps, id ∈ P) :
    id ∉ (reconcileAll Ps s).staged := by
  induction Ps generalizing s with
  | nil => exact hstaged
  | cons P Ps ih =>
    have hstep : id ∉ (reconcile P s).staged := reconcile_sticky_step hseen hstaged
    have hseen' : id ∈ (reconcile P s).seen := hP P (by simp)
    exact ih hseen' hstep (fun Q hQ => hP Q (List.mem_cons_of_mem _ hQ))

/-- C4 counterexample: the seen-id set is reset to the current pending list on
every reconciliation, so an id that the user unstaged, then left and re-entered
the pending list, is auto-staged again — contradicting "the seen-id set
accumulates monotonically" and "unstaging is sticky even if the id temporarily
leaves and re-enters the pending list". -/
theorem staging_stickiness_cex :
    (handleToggleStage "node:A"
        (reconcile ["node:A"] { staged := [], seen := [] })).staged = [] ∧
    (reconcile []
        (handleToggleStage "node:A"
          (reconcile ["node:A"] { staged := [], seen := [] }))).seen = [] ∧
    (reconcile ["node:A"]
        (reconcile []
          (handleToggleStage "node:A"
            (reconcile ["node:A"] { staged := [], seen := [] })))).staged =
      ["node:A"] := by
  decide

/-- C4 (amended): a change is auto-staged the first time its id appears; an
unstaged id stays unstaged across recomputations as long as it remains
continuously present in the pending lists; but the seen-id set does not
accumulate — every reconciliation replaces it with the current pending ids,
so an id that leaves and re-enters the pending list is auto-staged again. -/
theorem staging_reconcile_spec :
    (∀ (P : List String) (s : StagingState) (id : String),
      id ∈ P → id ∉ s.seen → id ∈ (reconcile P s).staged) ∧
    (∀ (Ps : List (List String)) (s : StagingState) (id : String),
      id ∈ s.seen → id ∉ s.staged → (∀ P ∈ Ps, id ∈ P) →
      id ∉ (reconcileAll Ps s).staged) ∧
    (∀ (P : List String) (s : StagingState), (reconcile P s).seen = P) := by
  refine ⟨?_, ?_, ?_⟩
  · intro P s id hP hseen
    exact reconcile_fold_stages hseen P _ hP
  · intro Ps s id hseen hstaged hP
    exact reconcile_sticky hseen hstaged hP
  · intro P s
    rfl

/-- Witness for the amended C4 at concrete states. -/
theorem staging_reconcile_spec_witness :
    "b" ∈ (reconcile ["b"] { staged := [], seen := ["a"] }).staged ∧
    "a" ∉ (reconcileAll [["a"], ["a", "b"]]
        { staged := [], seen := ["a"] }).staged :=
  ⟨staging_reconcile_spec.1 ["b"] { staged := [], seen := ["a"] } "b"
      (by decide) (by decide),
   staging_reconcile_spec.2.1 [["a"], ["a", "b"]]
      { staged := [], seen := ["a"] } "a" (by decide) (by decide) (by decide)⟩

/-- C10: after `unstageAll`, an id pending at that moment (a member of the
pending list `P0` of the latest reconciliation) is never automatically
re-staged by later reconciliations whose pending lists keep containing it;
`unstageAll` itself leaves the seen-id set untouched. -/
theorem unstageAll_spec :
    (∀ s : StagingState, (handleUnstageAll s).seen = s.seen) ∧
    (∀ (P0 : List String) (s : StagingState) (Ps : List (List String))
        (id : String), id ∈ P0 → (∀ P ∈ Ps, id ∈ P) →
      id ∉ (reconcileAll Ps
        (handleUnstageAll (reconcile P0 s))).staged) := by
  refine ⟨fun s => rfl, ?_⟩
  intro P0 s Ps id hP0 hPs
  refine reconcile_sticky ?_ ?_ hPs
  · exact hP0
  · simp [handleUnstageAll]

/-- Witness for C10 at a concrete state. -/
theorem unstageAll_spec_witness :
    "node:A" ∉ (reconcileAll [["node:A"], ["node:A", "node:B"]]
        (handleUnstageAll
          (reconcile ["node:A"] { staged := [], seen := [] }))).staged :=
  unstageAll_spec.2 ["node:A"] { staged := [], seen := [] }
    [["node:A"], ["node:A", "node:B"]] "node:A" (by decide) (by decide)

/-- C1: when the staged set is non-empty and the external commit fails
(transport error, non-2xx status, or unparsable body), `handleSync` leaves the
baseline, the version, the timestamp, the staged-id set, the pending list,
the live graph and the generated files untouched; only the error message is
set. -/
theorem handleSync_failure_atomic (s : SyncState) (outcome : CommitOutcome)
    (now : Nat) (msg : String)
    (hstaged : s.stagedChangeIds ≠ [])
    (hfail : outcomeMessage outcome = some msg) :
    (handleSync s outcome now).1.lastSyncedNodes = s.lastSyncedNodes ∧
    (handleSync s outcome now).1.lastSyncedEdges = s.lastSyncedEdges ∧
    (handleSync s outcome now).1.lastSyncedVersion = s.lastSyncedVersion ∧
    (handleSync s outcome now).1.lastSyncedAt = s.lastSyncedAt ∧
    (handleSync s outcome now).1.stagedChangeIds = s.stagedChangeIds ∧
    (handleSync s outcome now).1.pendingChanges = s.pendingChanges ∧
    (handleSync s outcome now).1.nodes = s.nodes ∧
    (handleSync s outcome now).1.edges = s.edges ∧
    (handleSync s outcome now).1.generatedFiles = s.generatedFiles ∧
    (handleSync s outcome now).1.syncError = some msg := by
  have hne : s.stagedChangeIds.isEmpty = false := by
    cases h : s.stagedChangeIds
    · exact absurd h hstaged
    · rfl
  cases outcome <;> simp_all [handleSync, outcomeMessage]

/-- Witness for C1 at a concrete failing commit. -/
theorem handleSync_failure_atomic_witness :
    (handleSync sampleSyncState
        (CommitOutcome.httpError "Sync failed: 500 Internal Server Error")
        7).1.lastSyncedVersion = sampleSyncState.lastSyncedVersion ∧
    (handleSync sampleSyncState
        (CommitOutcome.httpError "Sync failed: 500 Internal Server Error")
        7).1.syncError = some "Sync failed: 500 Internal Server Error" :=
  ⟨(handleSync_failure_atomic sampleSyncState
      (CommitOutcome.httpError "Sync failed: 500 Internal Server Error") 7
      "Sync failed: 500 Internal Server Error" (by decide) (by decide)).2.2.1,
   (handleSync_failure_atomic sampleSyncState
      (CommitOutcome.httpError "Sync failed: 500 Internal Server Error") 7
      "Sync failed: 500 Internal Server Error" (by decide)
      (by decide)).2.2.2.2.2.2.2.2.2⟩

/-- C2 counterexample: `handleSync` has no in-flight guard.  Invoked while
`isSyncing` is `true` with a non-empty staged set, it still sends the
external request and still mutates state (here: advances the version on
success) — contradicting "a second invocation performs no external request
and makes no state change". -/
theorem sync_inflight_cex :
    inflightSyncState.isSyncing = true ∧
    inflightSyncState.stagedChangeIds ≠ [] ∧
    (handleSync inflightSyncState (CommitOutcome.success none) 5).2 ≠ none ∧
    (handleSync inflightSyncState
      (CommitOutcome.success none) 5).1.lastSyncedVersion = some 1 := by
  decide

/-- C2 (amended): serialization of commits is enforced only at the UI — the
Sync button is disabled whenever a commit is in flight (or staging is empty)
— while `handleSync` itself performs the external request whenever the
staged set is non-empty, regardless of the in-flight flag. -/
theorem sync_inflight_spec :
    (∀ s : SyncState, s.isSyncing = true → syncButtonDisabled s = true) ∧
    (∀ (s : SyncState) (outcome : CommitOutcome) (now : Nat),
      s.stagedChangeIds ≠ [] → ((handleSync s outcome now).2).isSome = true) := by
  constructor
  · intro s h
    simp [syncButtonDisabled, h]
  · intro s outcome now hne
    have h : s.stagedChangeIds.isEmpty = false := by
      cases h : s.stagedChangeIds
      · exact absurd h hne
      · rfl
    cases outcome <;> simp [handleSync, h]

/-- Witness for the amended C2. -/
theorem sync_inflight_spec_witness :
    syncButtonDisabled inflightSyncState = true ∧
    ((handleSync inflightSyncState
      (CommitOutcome.success none) 5).2).isSome = true :=
  ⟨sync_inflight_spec.1 inflightSyncState (by decide),
   sync_inflight_spec.2 inflightSyncState (CommitOutcome.success none) 5
     (by decide)⟩

/-! ### Supporting lemmas: the JS `Map` model used by the baseline fold -/

theorem mapGet_cons {α : Type} {key : α → String} {x : α} {t : List α}
    {k : String} :
    mapGet key (x :: t) k =
      match mapGet key t k with
      | some y => some y
      | none => if key x == k then some x else none := by
  unfold mapGet
  rw [List.reverse_cons, List.find?_append]
  cases h : t.reverse.find? (fun y => key y == k) <;>
    cases hx : key x == k <;> simp [h, hx, List.find?, Option.or]

theorem jsMapSet_keys {α : Type} (m : List (Option String × α))
    (k : Option String) (v : α) (hany : m.any (fun kv => kv.1 == k) = true) :
    (jsMapSet m k v).map Prod.fst = m.map Prod.fst := by
  unfold jsMapSet
  rw [if_pos hany, List.map_map]
  refine List.map_congr_left ?_
  intro kv _
  by_cases hk : kv.1 == k
  · simp only [Function.comp_apply, hk, if_pos]
    exact (eq_of_beq hk).symm
  · have hne : kv.1 ≠ k := by simpa using hk
    simp [Function.comp_apply, hne]

theorem find?_key_map_replace {α : Type} {k k' : Option String} {v : α} :
    ∀ m : List (Option String × α),
      (m.map (fun kv => if kv.1 == k then (k, v) else kv)).find?
          (fun kv => kv.1 == k') =
        (m.find? (fun kv => kv.1 == k')).map
          (fun kv => if kv.1 == k then (k, v) else kv) := by
  intro m
  induction m with
  | nil => rfl
  | cons a t ih =>
    have hkey : ((fun kv => if kv.1 == k then (k, v) else kv) a).1 = a.1 := by
      by_cases hk : a.1 == k
      · simp only [hk, if_pos]
        exact (eq_of_beq hk).symm
      · have hne : a.1 ≠ k := by simpa using hk
        simp [hne]
    by_cases ha' : a.1 == k'
    · simp only [List.map_cons, List.find?_cons]
      rw [show ((if a.1 == k then (k, v) else a).1 == k') = true by
        rw [hkey]; exact ha', ha']
      rfl
    · simp only [List.map_cons, List.find?_cons]
      rw [show ((if a.1 == k then (k, v) else a).1 == k') = false by
        rw [hkey]; simpa using ha', show (a.1 == k') = false by simpa using ha']
      exact ih

theorem jsMapGetA_set {α : Type} (m : List (Option String × α))
    (k k' : Option String) (v : α) :
    jsMapGetA (jsMapSet m k v) k' =
      if k' = k then some v else jsMapGetA m k' := by
  by_cases hany : m.any (fun kv => kv.1 == k) = true
  · unfold jsMapSet jsMapGetA
    rw [if_pos hany, find?_key_map_replace]
    by_cases hk : k' = k
    · subst hk
      obtain ⟨kv, hkv, hkvk⟩ := List.any_eq_true.mp hany
      have hsome : (m.find? (fun kv => kv.1 == k')).isSome = true :=
        List.find?_isSome.mpr ⟨kv, hkv, hkvk⟩
      obtain ⟨kv', hkv'⟩ := Option.isSome_iff_exists.mp hsome
      rw [hkv']
      have hbeq := List.find?_some hkv'
      simp [eq_of_beq hbeq]
    · cases hfind : m.find? (fun kv => kv.1 == k') with
      | none => simp [hk]
      | some kv =>
        have hkvk : (kv.1 == k') = true := by
          simpa using List.find?_some hfind
        have hne : kv.1 ≠ k := by
          rw [eq_of_beq hkvk]
          simpa [eq_comm] using hk
        simp [hk, hne]
  · unfold jsMapSet jsMapGetA
    rw [if_neg hany, List.find?_append]
    by_cases hk : k' = k
    · subst hk
      have hnone : m.find? (fun kv => kv.1 == k') = none := by
        rw [List.find?_eq_none]
        intro kv hkv hbk
        exact hany (List.any_eq_true.mpr ⟨kv, hkv, hbk⟩)
      simp [hnone, List.find?, Option.or]
    · cases hfind : m.find? (fun kv => kv.1 == k') with
      | none =>
        have hbk : (k == k') = false := by
          have : k ≠ k' := fun h => hk h.symm
          simpa using this
        simp [hfind, List.find?, Option.or, hbk, hk]
      | some kv => simp [hfind, Option.or, hk]

theorem jsMapGetA_delete {α : Type} (m : List (Option String × α))
    (k k' : Option String) :
    jsMapGetA (jsMapDelete m k) k' =
      if k' = k then none else jsMapGetA m k' := by
  unfold jsMapDelete jsMapGetA
  by_cases hk : k' = k
  · subst hk
    rw [if_pos rfl]
    have hnone : (m.filter (fun kv => kv.1 != k')).find?
        (fun kv => kv.1 == k') = none := by
      rw [List.find?_eq_none]
      intro kv hkv hbk
      have hne := List.of_mem_filter hkv
      simp at hne
      exact hne (eq_of_beq hbk)
    simp [hnone]
  · rw [if_neg hk]
    induction m with
    | nil => rfl
    | cons a t ih =>
      simp only [List.filter_cons]
      by_cases hak : (a.1 != k) = true
      · rw [if_pos hak]
        by_cases ha' : (a.1 == k') = true
        · simp [List.find?_cons, ha']
        · simp only [List.find?_cons]
          rw [show (a.1 == k') = false by simpa using ha']
          exact ih
      · rw [if_neg hak]
        have hak' : a.1 = k := by simpa using hak
        have hbne : (a.1 == k') = false := by
          rw [hak']
          have : k ≠ k' := fun h => hk h.symm
          simpa using this
        simp only [List.find?_cons]
        rw [hbne]
        exact ih

theorem jsMapGetA_fromFold {α : Type} {key : α → String} :
    ∀ (l : List α) (acc : List (Option String × α)) (i : String),
      jsMapGetA
          (l.foldl (fun m x => jsMapSet m (some (key x)) x) acc) (some i) =
        match mapGet key l i with
        | some x => some x
        | none => jsMapGetA acc (some i) := by
  intro l
  induction l with
  | nil =>
    intro acc i
    simp [mapGet]
  | cons x t ih =>
    intro acc i
    rw [List.foldl_cons, ih, mapGet_cons]
    cases h : mapGet key t i with
    | some y => rfl
    | none =>
      simp only
      rw [jsMapGetA_set]
      by_cases hx : key x = i
      · rw [if_pos (by rw [hx]), if_pos (by simp [hx])]
      · rw [if_neg (by simpa [eq_comm] using fun h => hx (Option.some_inj.mp h).symm),
          if_neg (by simpa using hx)]

theorem jsMapGetA_fromNodes (l : List Node) (i : String) :
    jsMapGetA (jsMapFromNodes l) (some i) = mapGet Node.id l i := by
  unfold jsMapFromNodes
  rw [jsMapGetA_fromFold l [] i]
  cases mapGet Node.id l i <;> simp [jsMapGetA]

theorem jsMapGetA_fromEdges (l : List Edge) (i : String) :
    jsMapGetA (jsMapFromEdges l) (some i) = mapGet Edge.id l i := by
  unfold jsMapFromEdges
  rw [jsMapGetA_fromFold l [] i]
  cases mapGet Edge.id l i <;> simp [jsMapGetA]

theorem jsMapFromFold_eq {α : Type} {key : α → String} :
    ∀ (l : List α) (acc : List (Option String × α)),
      (l.map key).Nodup →
      (∀ x ∈ l, ∀ kv ∈ acc, kv.1 ≠ some (key x)) →
      l.foldl (fun m x => jsMapSet m (some (key x)) x) acc =
        acc ++ l.map (fun x => (some (key x), x)) := by
  intro l
  induction l with
  | nil => intro acc _ _; simp
  | cons x t ih =>
    intro acc hnd hdisj
    simp only [List.map_cons, List.nodup_cons] at hnd
    have hanyf : acc.any (fun kv => kv.1 == some (key x)) = false := by
      rw [Bool.eq_false_iff]
      intro hany
      obtain ⟨kv, hkv, hbk⟩ := List.any_eq_true.mp hany
      exact hdisj x (by simp) kv hkv (eq_of_beq hbk)
    have hset : jsMapSet acc (some (key x)) x = acc ++ [(some (key x), x)] := by
      unfold jsMapSet
      rw [if_neg (by simp [hanyf])]
    rw [List.foldl_cons, hset, ih _ hnd.2 ?_]
    · simp
    · intro y hy kv hkv
      rcases List.mem_append.mp hkv with h | h
      · exact hdisj y (List.mem_cons_of_mem _ hy) kv h
      · have : kv = (some (key x), x) := by simpa using h
        subst this
        intro hcon
        apply hnd.1
        rw [show key x = key y from Option.some_inj.mp hcon]
        exact List.mem_map_of_mem key hy

theorem jsMapFromNodes_eq {l : List Node} (hnd : (l.map Node.id).Nodup) :
    jsMapFromNodes l = l.map (fun n => (some n.id, n)) := by
  unfold jsMapFromNodes
  rw [jsMapFromFold_eq l [] hnd (by simp)]
  simp

theorem jsMapFromEdges_eq {l : List Edge} (hnd : (l.map Edge.id).Nodup) :
    jsMapFromEdges l = l.map (fun e => (some e.id, e)) := by
  unfold jsMapFromEdges
  rw [jsMapFromFold_eq l [] hnd (by simp)]
  simp

theorem keyedBy_fromNodes {l : List Node} (hnd : (l.map Node.id).Nodup) :
    keyedBy Node.id (jsMapFromNodes l) := by
  rw [jsMapFromNodes_eq hnd]
  constructor
  · intro kv hkv
    obtain ⟨n, _, rfl⟩ := List.mem_map.mp hkv
    rfl
  · rw [List.map_map]
    have : (Prod.fst ∘ fun n : Node => (some n.id, n)) =
        (fun n : Node => some n.id) := rfl
    rw [this, show (fun n : Node => some n.id) =
      (some ∘ Node.id) from rfl, ← List.map_map]
    exact hnd.map (fun a b h => Option.some_inj.mp h)

theorem keyedBy_fromEdges {l : List Edge} (hnd : (l.map Edge.id).Nodup) :
    keyedBy Edge.id (jsMapFromEdges l) := by
  rw [jsMapFromEdges_eq hnd]
  constructor
  · intro kv hkv
    obtain ⟨e, _, rfl⟩ := List.mem_map.mp hkv
    rfl
  · rw [List.map_map]
    rw [show (Prod.fst ∘ fun e : Edge => (some e.id, e)) =
      (some ∘ Edge.id) from rfl, ← List.map_map]
    exact hnd.map (fun a b h => Option.some_inj.mp h)

theorem keyedBy_set {α : Type} {key : α → String}
    {m : List (Option String × α)} (h : keyedBy key m) (v : α) :
    keyedBy key (jsMapSet m (some (key v)) v) := by
  obtain ⟨hkeys, hnd⟩ := h
  by_cases hany : m.any (fun kv => kv.1 == some (key v)) = true
  · constructor
    · intro kv hkv
      unfold jsMapSet at hkv
      rw [if_pos hany] at hkv
      obtain ⟨kv', hkv', rfl⟩ := List.mem_map.mp hkv
      by_cases hk : kv'.1 == some (key v)
      · simp [hk]
      · have hne : kv'.1 ≠ some (key v) := by simpa using hk
        simpa [hne] using hkeys kv' hkv'
    · rw [jsMapSet_keys m _ v hany]
      exact hnd
  · constructor
    · intro kv hkv
      unfold jsMapSet at hkv
      rw [if_neg hany] at hkv
      rcases List.mem_append.mp hkv with hkv | hkv
      · exact hkeys kv hkv
      · have : kv = (some (key v), v) := by simpa using hkv
        subst this
        rfl
    · unfold jsMapSet
      rw [if_neg hany, List.map_append]
      simp only [List.map_cons, List.map_nil]
      rw [List.nodup_append]
      refine ⟨hnd, by simp, ?_⟩
      intro a ha
      simp only [List.mem_singleton]
      intro hcon
      subst hcon
      obtain ⟨kv, hkv, hfst⟩ := List.mem_map.mp ha
      exact hany (List.any_eq_true.mpr ⟨kv, hkv, by simp [hfst]⟩)

theorem keyedBy_delete {α : Type} {key : α → String}
    {m : List (Option String × α)} (h : keyedBy key m) (k : Option String) :
    keyedBy key (jsMapDelete m k) := by
  obtain ⟨hkeys, hnd⟩ := h
  constructor
  · intro kv hkv
    exact hkeys kv (List.mem_of_mem_filter hkv)
  · exact hnd.sublist ((List.filter_sublist m).map Prod.fst)

theorem mapGet_values {α : Type} {key : α → String} {m : List (Option String × α)}
    (h : keyedBy key m) (i : String) :
    mapGet key (m.map Prod.snd) i = jsMapGetA m (some i) := by
  obtain ⟨hkeys, hnd⟩ := h
  have hvnd : ((m.map Prod.snd).map key).Nodup := by
    have h1 : m.map Prod.fst = m.map (fun kv => some (key kv.2)) :=
      List.map_congr_left (fun kv hkv => hkeys kv hkv)
    rw [h1] at hnd
    have h2 : m.map (fun kv => some (key kv.2)) =
        ((m.map Prod.snd).map key).map some := by
      rw [List.map_map, List.map_map]
      rfl
    rw [h2] at hnd
    exact List.Nodup.of_map some hnd
  cases hg : jsMapGetA m (some i) with
  | some v =>
    unfold jsMapGetA at hg
    cases hf : m.find? (fun kv => kv.1 == some i) with
    | none => rw [hf] at hg; cases hg
    | some kv =>
      rw [hf] at hg
      have hkmem := List.mem_of_find?_eq_some hf
      have hkq : (kv.1 == some i) = true := by simpa using List.find?_some hf
      have hkid : key kv.2 = i := by
        have hk := hkeys kv hkmem
        rw [hk] at hkq
        exact Option.some_inj.mp (eq_of_beq hkq)
      have hv : kv.2 = v := by simpa using hg
      subst hv
      exact mapGet_eq_some_of_nodup hvnd (List.mem_map_of_mem Prod.snd hkmem) hkid
  | none =>
    unfold jsMapGetA at hg
    cases hf : m.find? (fun kv => kv.1 == some i) with
    | some kv => rw [hf] at hg; cases hg
    | none =>
      rw [List.find?_eq_none] at hf
      rw [mapGet_eq_none_iff]
      intro v hv hvk
      obtain ⟨kv, hkv, rfl⟩ := List.mem_map.mp hv
      refine hf kv hkv ?_
      rw [hkeys kv hkv, hvk]
      simp

/-- What one staged change does to the node map at key `some i`. -/
theorem applyNode_lookup (m : List (Option String × Node)) (c : PendingChange)
    (i : String) :
    jsMapGetA (applyNodeChangeToMap m c) (some i) =
      if c.kind = ChangeKind.node ∧ c.nodeId = some i then
        match c.changeType, c.currentNode with
        | ChangeType.added, some cn => some cn
        | ChangeType.modified, some cn => some cn
        | ChangeType.removed, _ => none
        | _, _ => jsMapGetA m (some i)
      else jsMapGetA m (some i) := by
  unfold applyNodeChangeToMap
  by_cases hkind : c.kind = ChangeKind.node
  · rw [show (c.kind != ChangeKind.node) = false by simp [hkind]]
    simp only [Bool.false_eq_true, if_false]
    by_cases hid : c.nodeId = some i
    · rw [if_pos ⟨hkind, hid⟩]
      cases hct : c.changeType <;> cases hcn : c.currentNode <;>
        simp only [jsMapGetA_set, jsMapGetA_delete, hid] <;> simp
    · rw [if_neg (fun h => hid h.2)]
      cases hct : c.changeType <;> cases hcn : c.currentNode <;>
        simp only [jsMapGetA_set, jsMapGetA_delete] <;>
        first
        | rfl
        | rw [if_neg (fun h => hid (Eq.symm h))]
  · rw [show (c.kind != ChangeKind.node) = true by simpa using hkind]
    rw [if_pos rfl, if_neg (fun h : c.kind = ChangeKind.node ∧ c.nodeId = some i => hkind h.1)]

/-- What one staged change does to the edge map at key `some i`. -/
theorem applyEdge_lookup (m : List (Option String × Edge)) (c : PendingChange)
    (i : String) :
    jsMapGetA (applyEdgeChangeToMap m c) (some i) =
      if c.kind = ChangeKind.edge ∧ c.edgeId = some i then
        match c.changeType, c.currentEdge with
        | ChangeType.added, some ce => some ce
        | ChangeType.modified, some ce => some ce
        | ChangeType.removed, _ => none
        | _, _ => jsMapGetA m (some i)
      else jsMapGetA m (some i) := by
  unfold applyEdgeChangeToMap
  by_cases hkind : c.kind = ChangeKind.edge
  · rw [show (c.kind != ChangeKind.edge) = false by simp [hkind]]
    simp only [Bool.false_eq_true, if_false]
    by_cases hid : c.edgeId = some i
    · rw [if_pos ⟨hkind, hid⟩]
      cases hct : c.changeType <;> cases hcn : c.currentEdge <;>
        simp only [jsMapGetA_set, jsMapGetA_delete, hid] <;> simp
    · rw [if_neg (fun h => hid h.2)]
      cases hct : c.changeType <;> cases hcn : c.currentEdge <;>
        simp only [jsMapGetA_set, jsMapGetA_delete] <;>
        first
        | rfl
        | rw [if_neg (fun h => hid (Eq.symm h))]
  · rw [show (c.kind != ChangeKind.edge) = true by simpa using hkind]
    rw [if_pos rfl, if_neg (fun h : c.kind = ChangeKind.edge ∧ c.edgeId = some i => hkind h.1)]

theorem foldNodes_lookup_untouched {staged : List PendingChange}
    {m : List (Option String × Node)} {i : String}
    (h : ∀ c ∈ staged, ¬(c.kind = ChangeKind.node ∧ c.nodeId = some i)) :
    jsMapGetA (staged.foldl applyNodeChangeToMap m) (some i) =
      jsMapGetA m (some i) := by
  induction staged generalizing m with
  | nil => rfl
  | cons c t ih =>
    rw [List.foldl_cons,
      ih (fun d hd => h d (List.mem_cons_of_mem _ hd)),
      applyNode_lookup, if_neg (h c (by simp))]

theorem foldEdges_lookup_untouched {staged : List PendingChange}
    {m : List (Option String × Edge)} {i : String}
    (h : ∀ c ∈ staged, ¬(c.kind = ChangeKind.edge ∧ c.edgeId = some i)) :
    jsMapGetA (staged.foldl applyEdgeChangeToMap m) (some i) =
      jsMapGetA m (some i) := by
  induction staged generalizing m with
  | nil => rfl
  | cons c t ih =>
    rw [List.foldl_cons,
      ih (fun d hd => h d (List.mem_cons_of_mem _ hd)),
      applyEdge_lookup, if_neg (h c (by simp))]

theorem foldNodes_lookup_touched {staged : List PendingChange}
    {i : String} {c : PendingChange}
    (hmem : c ∈ staged) (hkind : c.kind = ChangeKind.node)
    (hid : c.nodeId = some i)
    (huniq : ∀ d ∈ staged, d.kind = ChangeKind.node → d.nodeId = some i → d = c)
    (hnd : staged.Nodup) :
    ∀ m : List (Option String × Node),
      jsMapGetA (staged.foldl applyNodeChangeToMap m) (some i) =
        match c.changeType, c.currentNode with
        | ChangeType.added, some cn => some cn
        | ChangeType.modified, some cn => some cn
        | ChangeType.removed, _ => none
        | _, _ => jsMapGetA m (some i) := by
  induction staged with
  | nil => cases hmem
  | cons d t ih =>
    intro m
    rw [List.foldl_cons]
    rcases List.mem_cons.mp hmem with rfl | hct
    · have hnott : ∀ e ∈ t, ¬(e.kind = ChangeKind.node ∧ e.nodeId = some i) := by
        intro e he hcon
        have := huniq e (List.mem_cons_of_mem _ he) hcon.1 hcon.2
        subst this
        exact (List.nodup_cons.mp hnd).1 he
      rw [foldNodes_lookup_untouched hnott, applyNode_lookup,
        if_pos ⟨hkind, hid⟩]
    · have hdc : d ≠ c := by
        intro hcon
        subst hcon
        exact (List.nodup_cons.mp hnd).1 hct
      have hdnot : ¬(d.kind = ChangeKind.node ∧ d.nodeId = some i) := by
        intro hcon
        exact hdc (huniq d (by simp) hcon.1 hcon.2)
      have ihm := ih hct
        (fun e he hk hi => huniq e (List.mem_cons_of_mem _ he) hk hi)
        (List.nodup_cons.mp hnd).2 (applyNodeChangeToMap m d)
      rw [ihm]
      have hpres : jsMapGetA (applyNodeChangeToMap m d) (some i) =
          jsMapGetA m (some i) := by
        rw [applyNode_lookup, if_neg hdnot]
      cases c.changeType <;> cases c.currentNode <;> simp [hpres]

theorem foldEdges_lookup_touched {staged : List PendingChange}
    {i : String} {c : PendingChange}
    (hmem : c ∈ staged) (hkind : c.kind = ChangeKind.edge)
    (hid : c.edgeId = some i)
    (huniq : ∀ d ∈ staged, d.kind = ChangeKind.edge → d.edgeId = some i → d = c)
    (hnd : staged.Nodup) :
    ∀ m : List (Option String × Edge),
      jsMapGetA (staged.foldl applyEdgeChangeToMap m) (some i) =
        match c.changeType, c.currentEdge with
        | ChangeType.added, some ce => some ce
        | ChangeType.modified, some ce => some ce
        | ChangeType.removed, _ => none
        | _, _ => jsMapGetA m (some i) := by
  induction staged with
  | nil => cases hmem
  | cons d t ih =>
    intro m
    rw [List.foldl_cons]
    rcases List.mem_cons.mp hmem with rfl | hct
    · have hnott : ∀ e ∈ t, ¬(e.kind = ChangeKind.edge ∧ e.edgeId = some i) := by
        intro e he hcon
        have := huniq e (List.mem_cons_of_mem _ he) hcon.1 hcon.2
        subst this
        exact (List.nodup_cons.mp hnd).1 he
      rw [foldEdges_lookup_untouched hnott, applyEdge_lookup,
        if_pos ⟨hkind, hid⟩]
    · have hdc : d ≠ c := by
        intro hcon
        subst hcon
        exact (List.nodup_cons.mp hnd).1 hct
      have hdnot : ¬(d.kind = ChangeKind.edge ∧ d.edgeId = some i) := by
        intro hcon
        exact hdc (huniq d (by simp) hcon.1 hcon.2)
      have ihm := ih hct
        (fun e he hk hi => huniq e (List.mem_cons_of_mem _ he) hk hi)
        (List.nodup_cons.mp hnd).2 (applyEdgeChangeToMap m d)
      rw [ihm]
      have hpres : jsMapGetA (applyEdgeChangeToMap m d) (some i) =
          jsMapGetA m (some i) := by
        rw [applyEdge_lookup, if_neg hdnot]
      cases c.changeType <;> cases c.currentEdge <;> simp [hpres]

theorem applyNode_entry_mem {m : List (Option String × Node)}
    {c : PendingChange} {kv : Option String × Node}
    (hkv : kv ∈ m) (h : ¬(c.kind = ChangeKind.node ∧ c.nodeId = kv.1)) :
    kv ∈ applyNodeChangeToMap m c := by
  unfold applyNodeChangeToMap
  by_cases hkind : c.kind = ChangeKind.node
  · rw [show (c.kind != ChangeKind.node) = false by simp [hkind],
      if_neg (by simp)]
    have hid : c.nodeId ≠ kv.1 := fun hcon => h ⟨hkind, hcon⟩
    have hset : ∀ v : Node, kv ∈ jsMapSet m c.nodeId v := by
      intro v
      unfold jsMapSet
      by_cases hany : m.any (fun kv' => kv'.1 == c.nodeId) = true
      · rw [if_pos hany]
        have : (fun kv' : Option String × Node =>
            if kv'.1 == c.nodeId then (c.nodeId, v) else kv') kv = kv := by
          have : (kv.1 == c.nodeId) = false :=
            beq_eq_false_iff_ne.mpr (fun hcon => hid hcon.symm)
          simp [this]
        rw [← this]
        exact List.mem_map_of_mem _ hkv
      · rw [if_neg hany]
        exact List.mem_append_left _ hkv
    have hdel : kv ∈ jsMapDelete m c.nodeId := by
      unfold jsMapDelete
      refine List.mem_filter_of_mem hkv ?_
      exact bne_iff_ne.mpr (fun hcon => hid hcon.symm)
    cases c.changeType <;> cases c.currentNode <;>
      first
      | exact hkv
      | exact hset _
      | exact hdel
  · rw [show (c.kind != ChangeKind.node) = true by simpa using hkind,
      if_pos rfl]
    exact hkv

theorem applyEdge_entry_mem {m : List (Option String × Edge)}
    {c : PendingChange} {kv : Option String × Edge}
    (hkv : kv ∈ m) (h : ¬(c.kind = ChangeKind.edge ∧ c.edgeId = kv.1)) :
    kv ∈ applyEdgeChangeToMap m c := by
  unfold applyEdgeChangeToMap
  by_cases hkind : c.kind = ChangeKind.edge
  · rw [show (c.kind != ChangeKind.edge) = false by simp [hkind],
      if_neg (by simp)]
    have hid : c.edgeId ≠ kv.1 := fun hcon => h ⟨hkind, hcon⟩
    have hset : ∀ v : Edge, kv ∈ jsMapSet m c.edgeId v := by
      intro v
      unfold jsMapSet
      by_cases hany : m.any (fun kv' => kv'.1 == c.edgeId) = true
      · rw [if_pos hany]
        have : (fun kv' : Option String × Edge =>
            if kv'.1 == c.edgeId then (c.edgeId, v) else kv') kv = kv := by
          have : (kv.1 == c.edgeId) = false :=
            beq_eq_false_iff_ne.mpr (fun hcon => hid hcon.symm)
          simp [this]
        rw [← this]
        exact List.mem_map_of_mem _ hkv
      · rw [if_neg hany]
        exact List.mem_append_left _ hkv
    have hdel : kv ∈ jsMapDelete m c.edgeId := by
      unfold jsMapDelete
      refine List.mem_filter_of_mem hkv ?_
      exact bne_iff_ne.mpr (fun hcon => hid hcon.symm)
    cases c.changeType <;> cases c.currentEdge <;>
      first
      | exact hkv
      | exact hset _
      | exact hdel
  · rw [show (c.kind != ChangeKind.edge) = true by simpa using hkind,
      if_pos rfl]
    exact hkv

theorem foldNodes_entry_mem {staged : List PendingChange}
    {kv : Option String × Node}
    (h : ∀ c ∈ staged, ¬(c.kind = ChangeKind.node ∧ c.nodeId = kv.1)) :
    ∀ m : List (Option String × Node), kv ∈ m →
      kv ∈ staged.foldl applyNodeChangeToMap m := by
  induction staged with
  | nil => intro m hm; exact hm
  | cons c t ih =>
    intro m hm
    rw [List.foldl_cons]
    exact ih (fun d hd => h d (List.mem_cons_of_mem _ hd)) _
      (applyNode_entry_mem hm (h c (by simp)))

theorem foldEdges_entry_mem {staged : List PendingChange}
    {kv : Option String × Edge}
    (h : ∀ c ∈ staged, ¬(c.kind = ChangeKind.edge ∧ c.edgeId = kv.1)) :
    ∀ m : List (Option String × Edge), kv ∈ m →
      kv ∈ staged.foldl applyEdgeChangeToMap m := by
  induction staged with
  | nil => intro m hm; exact hm
  | cons c t ih =>
    intro m hm
    rw [List.foldl_cons]
    exact ih (fun d hd => h d (List.mem_cons_of_mem _ hd)) _
      (applyEdge_entry_mem hm (h c (by simp)))

/-- Structural facts about any member of the diff output. -/
theorem mem_pending_shape {nodes bn : List Node} {edges be : List Edge}
    {c : PendingChange}
    (hc : c ∈ computePendingChanges nodes edges bn be) :
    (c.kind = ChangeKind.node →
      ∃ nid, c.nodeId = some nid ∧ c.id = nodeChangeId nid ∧
        (∀ cn, c.currentNode = some cn → cn.id = nid)) ∧
    (c.kind = ChangeKind.edge →
      ∃ eid, c.edgeId = some eid ∧ c.id = edgeChangeId eid ∧
        (∀ ce, c.currentEdge = some ce → ce.id = eid)) := by
  have hraw : c ∈ rawChanges nodes edges bn be := List.mem_mergeSort.mp hc
  unfold rawChanges at hraw
  simp only [List.append_assoc, List.mem_append] at hraw
  rcases hraw with hA | hB | hC | hD
  · obtain ⟨n, _, hfn⟩ := List.mem_filterMap.mp hA
    rcases nodeUpsertAt_eq_some_iff.mp hfn with ⟨_, rfl⟩ | ⟨p, _, _, rfl⟩ <;>
      exact ⟨fun _ => ⟨n.id, rfl, rfl, fun cn hcn => by
        simp [addedNodeChange, modifiedNodeChange] at hcn
        rw [← hcn]⟩,
        fun hk => by simp [addedNodeChange, modifiedNodeChange] at hk⟩
  · obtain ⟨p, _, hfp⟩ := List.mem_filterMap.mp hB
    obtain ⟨_, rfl⟩ := nodeRemovalAt_eq_some_iff.mp hfp
    exact ⟨fun _ => ⟨p.id, rfl, rfl, fun cn hcn => by
      simp [removedNodeChange] at hcn⟩,
      fun hk => by simp [removedNodeChange] at hk⟩
  · obtain ⟨e, _, hfe⟩ := List.mem_filterMap.mp hC
    rcases edgeUpsertAt_eq_some_iff.mp hfe with ⟨_, rfl⟩ | ⟨p, _, _, rfl⟩ <;>
      exact ⟨fun hk => by simp [addedEdgeChange, modifiedEdgeChange] at hk,
        fun _ => ⟨e.id, rfl, rfl, fun ce hce => by
          simp [addedEdgeChange, modifiedEdgeChange] at hce
          rw [← hce]⟩⟩
  · obtain ⟨p, _, hfp⟩ := List.mem_filterMap.mp hD
    obtain ⟨_, rfl⟩ := edgeRemovalAt_eq_some_iff.mp hfp
    exact ⟨fun hk => by simp [removedEdgeChange] at hk,
      fun _ => ⟨p.id, rfl, rfl, fun ce hce => by
        simp [removedEdgeChange] at hce⟩⟩

/-- The diff output has pairwise-distinct (kind, id) keys. -/
theorem computePendingChanges_pairwise_key {nodes bn : List Node}
    {edges be : List Edge}
    (hn : (nodes.map Node.id).Nodup) (hbn : (bn.map Node.id).Nodup)
    (he : (edges.map Edge.id).Nodup) (hbe : (be.map Edge.id).Nodup) :
    (computePendingChanges nodes edges bn be).Pairwise
      (fun a b => ¬ sameKey a b) :=
  ((List.mergeSort_perm _ changeLE).pairwise_iff
    (fun h hk => h (sameKey_symm hk))).mpr
    (rawChanges_pairwise_key hn hbn he hbe)

theorem nodup_of_pairwise_key {l : List PendingChange}
    (h : l.Pairwise (fun a b => ¬ sameKey a b)) : l.Nodup := by
  refine h.imp ?_
  intro a b hk he
  exact hk (by rw [he]; exact ⟨rfl, rfl⟩)

theorem keyedBy_applyNode {m : List (Option String × Node)}
    {c : PendingChange} (h : keyedBy Node.id m)
    (hc : c.kind = ChangeKind.node →
      ∀ cn, c.currentNode = some cn → c.nodeId = some cn.id) :
    keyedBy Node.id (applyNodeChangeToMap m c) := by
  unfold applyNodeChangeToMap
  by_cases hkind : c.kind = ChangeKind.node
  · rw [show (c.kind != ChangeKind.node) = false by simp [hkind],
      if_neg (by simp)]
    cases hct : c.changeType <;> cases hcn : c.currentNode
    · exact h
    · rw [hc hkind _ hcn]
      exact keyedBy_set h _
    · exact h
    · rw [hc hkind _ hcn]
      exact keyedBy_set h _
    · exact keyedBy_delete h _
    · exact keyedBy_delete h _
  · rw [show (c.kind != ChangeKind.node) = true by simpa using hkind,
      if_pos rfl]
    exact h

theorem keyedBy_applyEdge {m : List (Option String × Edge)}
    {c : PendingChange} (h : keyedBy Edge.id m)
    (hc : c.kind = ChangeKind.edge →
      ∀ ce, c.currentEdge = some ce → c.edgeId = some ce.id) :
    keyedBy Edge.id (applyEdgeChangeToMap m c) := by
  unfold applyEdgeChangeToMap
  by_cases hkind : c.kind = ChangeKind.edge
  · rw [show (c.kind != ChangeKind.edge) = false by simp [hkind],
      if_neg (by simp)]
    cases hct : c.changeType <;> cases hcn : c.currentEdge
    · exact h
    · rw [hc hkind _ hcn]
      exact keyedBy_set h _
    · exact h
    · rw [hc hkind _ hcn]
      exact keyedBy_set h _
    · exact keyedBy_delete h _
    · exact keyedBy_delete h _
  · rw [show (c.kind != ChangeKind.edge) = true by simpa using hkind,
      if_pos rfl]
    exact h

theorem keyedBy_foldNodes {staged : List PendingChange}
    (hc : ∀ c ∈ staged, c.kind = ChangeKind.node →
      ∀ cn, c.currentNode = some cn → c.nodeId = some cn.id) :
    ∀ {m : List (Option String × Node)}, keyedBy Node.id m →
      keyedBy Node.id (staged.foldl applyNodeChangeToMap m) := by
  induction staged with
  | nil => intro m h; exact h
  | cons c t ih =>
    intro m h
    rw [List.foldl_cons]
    exact ih (fun d hd => hc d (List.mem_cons_of_mem _ hd))
      (keyedBy_applyNode h (hc c (by simp)))

theorem keyedBy_foldEdges {staged : List PendingChange}
    (hc : ∀ c ∈ staged, c.kind = ChangeKind.edge →
      ∀ ce, c.currentEdge = some ce → c.edgeId = some ce.id) :
    ∀ {m : List (Option String × Edge)}, keyedBy Edge.id m →
      keyedBy Edge.id (staged.foldl applyEdgeChangeToMap m) := by
  induction staged with
  | nil => intro m h; exact h
  | cons c t ih =>
    intro m h
    rw [List.foldl_cons]
    exact ih (fun d hd => hc d (List.mem_cons_of_mem _ hd))
      (keyedBy_applyEdge h (hc c (by simp)))

/-- Behaviour of the node-baseline fold: staged upserts land under their id,
staged removals delete, and everything untouched keeps its lookup and its
entry. -/
theorem foldNodeBaseline_spec {bn : List Node} {staged : List PendingChange}
    (hbn : (bn.map Node.id).Nodup)
    (hpw : staged.Pairwise (fun a b => ¬ sameKey a b))
    (hshape : ∀ c ∈ staged, c.kind = ChangeKind.node →
      ∃ nid, c.nodeId = some nid ∧ c.id = nodeChangeId nid ∧
        (∀ cn, c.currentNode = some cn → cn.id = nid)) :
    (∀ c ∈ staged, ∀ nid cn, c.kind = ChangeKind.node → c.nodeId = some nid →
      c.currentNode = some cn →
      (c.changeType = ChangeType.added ∨ c.changeType = ChangeType.modified) →
      mapGet Node.id (foldNodeBaseline bn staged) nid = some cn) ∧
    (∀ c ∈ staged, ∀ nid, c.kind = ChangeKind.node → c.nodeId = some nid →
      c.changeType = ChangeType.removed →
      mapGet Node.id (foldNodeBaseline bn staged) nid = none) ∧
    (∀ i, (∀ c ∈ staged, ¬(c.kind = ChangeKind.node ∧ c.nodeId = some i)) →
      mapGet Node.id (foldNodeBaseline bn staged) i = mapGet Node.id bn i) ∧
    (∀ p : Node, p ∈ bn →
      (∀ c ∈ staged, ¬(c.kind = ChangeKind.node ∧ c.nodeId = some p.id)) →
      p ∈ foldNodeBaseline bn staged) := by
  have hwk : ∀ c ∈ staged, c.kind = ChangeKind.node →
      ∀ cn, c.currentNode = some cn → c.nodeId = some cn.id := by
    intro c hc hk cn hcn
    obtain ⟨nid, hnid, _, hcur⟩ := hshape c hc hk
    rw [hnid, hcur cn hcn]
  have hkeyed : keyedBy Node.id
      (staged.foldl applyNodeChangeToMap (jsMapFromNodes bn)) :=
    keyedBy_foldNodes hwk (keyedBy_fromNodes hbn)
  have hlook : ∀ i, mapGet Node.id (foldNodeBaseline bn staged) i =
      jsMapGetA (staged.foldl applyNodeChangeToMap (jsMapFromNodes bn))
        (some i) := by
    intro i
    unfold foldNodeBaseline
    exact mapGet_values hkeyed i
  have hnd : staged.Nodup := nodup_of_pairwise_key hpw
  have huniq : ∀ c ∈ staged, ∀ nid, c.kind = ChangeKind.node →
      c.nodeId = some nid →
      ∀ d ∈ staged, d.kind = ChangeKind.node → d.nodeId = some nid → d = c := by
    intro c hc nid hkind hnid d hd hdk hdn
    by_cases hdc : d = c
    · exact hdc
    · exfalso
      obtain ⟨nid₁, hn₁, hid₁, _⟩ := hshape c hc hkind
      obtain ⟨nid₂, hn₂, hid₂, _⟩ := hshape d hd hdk
      have e₁ : nid₁ = nid := Option.some_inj.mp (hn₁ ▸ hnid)
      have e₂ : nid₂ = nid := Option.some_inj.mp (hn₂ ▸ hdn)
      have hkey : sameKey d c := by
        refine ⟨hdk.trans hkind.symm, ?_⟩
        rw [hid₁, hid₂, e₁, e₂]
      exact (hpw.forall not_sameKey_symmetric hd hc hdc) hkey
  refine ⟨?_, ?_, ?_, ?_⟩
  · intro c hc nid cn hkind hnid hcn hct
    rw [hlook, foldNodes_lookup_touched hc hkind hnid
      (huniq c hc nid hkind hnid) hnd (jsMapFromNodes bn)]
    rcases hct with h | h <;> rw [h, hcn]
  · intro c hc nid hkind hnid hct
    rw [hlook, foldNodes_lookup_touched hc hkind hnid
      (huniq c hc nid hkind hnid) hnd (jsMapFromNodes bn), hct]
  · intro i huntouched
    rw [hlook, foldNodes_lookup_untouched huntouched, jsMapGetA_fromNodes]
  · intro p hp huntouched
    have hentry : (some p.id, p) ∈ jsMapFromNodes bn := by
      rw [jsMapFromNodes_eq hbn]
      exact List.mem_map_of_mem _ hp
    have hsurv : (some p.id, p) ∈
        staged.foldl applyNodeChangeToMap (jsMapFromNodes bn) :=
      foldNodes_entry_mem huntouched _ hentry
    unfold foldNodeBaseline
    exact List.mem_map_of_mem Prod.snd hsurv

/-- Behaviour of the edge-baseline fold: the edge analogue of
`foldNodeBaseline_spec`. -/
theorem foldEdgeBaseline_spec {be : List Edge} {staged : List PendingChange}
    (hbe : (be.map Edge.id).Nodup)
    (hpw : staged.Pairwise (fun a b => ¬ sameKey a b))
    (hshape : ∀ c ∈ staged, c.kind = ChangeKind.edge →
      ∃ eid, c.edgeId = some eid ∧ c.id = edgeChangeId eid ∧
        (∀ ce, c.currentEdge = some ce → ce.id = eid)) :
    (∀ c ∈ staged, ∀ eid ce, c.kind = ChangeKind.edge → c.edgeId = some eid →
      c.currentEdge = some ce →
      (c.changeType = ChangeType.added ∨ c.changeType = ChangeType.modified) →
      mapGet Edge.id (foldEdgeBaseline be staged) eid = some ce) ∧
    (∀ c ∈ staged, ∀ eid, c.kind = ChangeKind.edge → c.edgeId = some eid →
      c.changeType = ChangeType.removed →
      mapGet Edge.id (foldEdgeBaseline be staged) eid = none) ∧
    (∀ i, (∀ c ∈ staged, ¬(c.kind = ChangeKind.edge ∧ c.edgeId = some i)) →
      mapGet Edge.id (foldEdgeBaseline be staged) i = mapGet Edge.id be i) ∧
    (∀ p : Edge, p ∈ be →
      (∀ c ∈ staged, ¬(c.kind = ChangeKind.edge ∧ c.edgeId = some p.id)) →
      p ∈ foldEdgeBaseline be staged) := by
  have hwk : ∀ c ∈ staged, c.kind = ChangeKind.edge →
      ∀ ce, c.currentEdge = some ce → c.edgeId = some ce.id := by
    intro c hc hk ce hce
    obtain ⟨eid, heid, _, hcur⟩ := hshape c hc hk
    rw [heid, hcur ce hce]
  have hkeyed : keyedBy Edge.id
      (staged.foldl applyEdgeChangeToMap (jsMapFromEdges be)) :=
    keyedBy_foldEdges hwk (keyedBy_fromEdges hbe)
  have hlook : ∀ i, mapGet Edge.id (foldEdgeBaseline be staged) i =
      jsMapGetA (staged.foldl applyEdgeChangeToMap (jsMapFromEdges be))
        (some i) := by
    intro i
    unfold foldEdgeBaseline
    exact mapGet_values hkeyed i
  have hnd : staged.Nodup := nodup_of_pairwise_key hpw
  have huniq : ∀ c ∈ staged, ∀ eid, c.kind = ChangeKind.edge →
      c.edgeId = some eid →
      ∀ d ∈ staged, d.kind = ChangeKind.edge → d.edgeId = some eid → d = c := by
    intro c hc eid hkind heid d hd hdk hdn
    by_cases hdc : d = c
    · exact hdc
    · exfalso
      obtain ⟨eid₁, he₁, hid₁, _⟩ := hshape c hc hkind
      obtain ⟨eid₂, he₂, hid₂, _⟩ := hshape d hd hdk
      have e₁ : eid₁ = eid := Option.some_inj.mp (he₁ ▸ heid)
      have e₂ : eid₂ = eid := Option.some_inj.mp (he₂ ▸ hdn)
      have hkey : sameKey d c := by
        refine ⟨hdk.trans hkind.symm, ?_⟩
        rw [hid₁, hid₂, e₁, e₂]
      exact (hpw.forall not_sameKey_symmetric hd hc hdc) hkey
  refine ⟨?_, ?_, ?_, ?_⟩
  · intro c hc eid ce hkind heid hce hct
    rw [hlook, foldEdges_lookup_touched hc hkind heid
      (huniq c hc eid hkind heid) hnd (jsMapFromEdges be)]
    rcases hct with h | h <;> rw [h, hce]
  · intro c hc eid hkind heid hct
    rw [hlook, foldEdges_lookup_touched hc hkind heid
      (huniq c hc eid hkind heid) hnd (jsMapFromEdges be), hct]
  · intro i huntouched
    rw [hlook, foldEdges_lookup_untouched huntouched, jsMapGetA_fromEdges]
  · intro p hp huntouched
    have hentry : (some p.id, p) ∈ jsMapFromEdges be := by
      rw [jsMapFromEdges_eq hbe]
      exact List.mem_map_of_mem _ hp
    have hsurv : (some p.id, p) ∈
        staged.foldl applyEdgeChangeToMap (jsMapFromEdges be) :=
      foldEdges_entry_mem huntouched _ hentry
    unfold foldEdgeBaseline
    exact List.mem_map_of_mem Prod.snd hsurv

/-- A node-kind diff entry survives a baseline replacement that does not
disturb its entity: the lookup at its id is unchanged and (for removals) the
baseline entry itself is still present. -/
theorem pending_preserved_node {nodes bn bn' : List Node}
    {edges be be' : List Edge} {c : PendingChange}
    (hc : c ∈ computePendingChanges nodes edges bn be)
    (hkind : c.kind = ChangeKind.node)
    (hlook : ∀ i, c.nodeId = some i →
      mapGet Node.id bn' i = mapGet Node.id bn i)
    (hmem : ∀ p : Node, p ∈ bn → c.nodeId = some p.id → p ∈ bn') :
    c ∈ computePendingChanges nodes edges bn' be' := by
  have hraw : c ∈ rawChanges nodes edges bn be := List.mem_mergeSort.mp hc
  unfold rawChanges at hraw
  simp only [List.append_assoc, List.mem_append] at hraw
  refine List.mem_mergeSort.mpr ?_
  unfold rawChanges
  simp only [List.append_assoc, List.mem_append]
  rcases hraw with hA | hB | hC | hD
  · obtain ⟨n, hnmem, hfn⟩ := List.mem_filterMap.mp hA
    obtain ⟨_, _, hcid⟩ := nodeUpsertAt_shape hfn
    left
    refine List.mem_filterMap.mpr ⟨n, hnmem, ?_⟩
    rw [← hfn]
    unfold nodeUpsertAt
    rw [hlook n.id hcid]
  · obtain ⟨p, hpmem, hfp⟩ := List.mem_filterMap.mp hB
    obtain ⟨_, _, hcid⟩ := nodeRemovalAt_shape hfp
    right; left
    exact List.mem_filterMap.mpr ⟨p, hmem p hpmem hcid, hfp⟩
  · obtain ⟨e, _, hfe⟩ := List.mem_filterMap.mp hC
    have := (edgeUpsertAt_shape hfe).1
    rw [hkind] at this
    cases this
  · obtain ⟨p, _, hfp⟩ := List.mem_filterMap.mp hD
    have := (edgeRemovalAt_shape hfp).1
    rw [hkind] at this
    cases this

/-- The edge analogue of `pending_preserved_node`. -/
theorem pending_preserved_edge {nodes bn bn' : List Node}
    {edges be be' : List Edge} {c : PendingChange}
    (hc : c ∈ computePendingChanges nodes edges bn be)
    (hkind : c.kind = ChangeKind.edge)
    (hlook : ∀ i, c.edgeId = some i →
      mapGet Edge.id be' i = mapGet Edge.id be i)
    (hmem : ∀ p : Edge, p ∈ be → c.edgeId = some p.id → p ∈ be') :
    c ∈ computePendingChanges nodes edges bn' be' := by
  have hraw : c ∈ rawChanges nodes edges bn be := List.mem_mergeSort.mp hc
  unfold rawChanges at hraw
  simp only [List.append_assoc, List.mem_append] at hraw
  refine List.mem_mergeSort.mpr ?_
  unfold rawChanges
  simp only [List.append_assoc, List.mem_append]
  rcases hraw with hA | hB | hC | hD
  · obtain ⟨n, _, hfn⟩ := List.mem_filterMap.mp hA
    have := (nodeUpsertAt_shape hfn).1
    rw [hkind] at this
    cases this
  · obtain ⟨p, _, hfp⟩ := List.mem_filterMap.mp hB
    have := (nodeRemovalAt_shape hfp).1
    rw [hkind] at this
    cases this
  · obtain ⟨e, hemem, hfe⟩ := List.mem_filterMap.mp hC
    obtain ⟨_, _, hcid⟩ := edgeUpsertAt_shape hfe
    right; right; left
    refine List.mem_filterMap.mpr ⟨e, hemem, ?_⟩
    rw [← hfe]
    unfold edgeUpsertAt
    rw [hlook e.id hcid]
  · obtain ⟨p, hpmem, hfp⟩ := List.mem_filterMap.mp hD
    obtain ⟨_, _, hcid⟩ := edgeRemovalAt_shape hfp
    right; right; right
    exact List.mem_filterMap.mpr ⟨p, hmem p hpmem hcid, hfp⟩

/-- C6: on a successful commit, every staged `added`/`modified` change upserts
its current entity into the baseline map under its id, every staged `removed`
change deletes that id, untouched baseline entries keep their lookup, the
version counter goes `null ⇒ 1` and `v ⇒ v + 1`, the last-synced timestamp is
set to the present call's clock reading, the staged-id set is cleared
entirely, and every unstaged-but-pending change is still produced by the diff
against the new baseline and is not re-staged by the following
reconciliation. -/
theorem handleSync_success_spec
    (s : SyncState) (files : Option (List GenFile)) (now : Nat)
    (hstaged : s.stagedChangeIds ≠ [])
    (hpend : s.pendingChanges =
      computePendingChanges s.nodes s.edges s.lastSyncedNodes s.lastSyncedEdges)
    (hn : (s.nodes.map Node.id).Nodup)
    (hbn : (s.lastSyncedNodes.map Node.id).Nodup)
    (he : (s.edges.map Edge.id).Nodup)
    (hbe : (s.lastSyncedEdges.map Edge.id).Nodup) :
    (s.lastSyncedVersion = none →
      (handleSync s (CommitOutcome.success files) now).1.lastSyncedVersion =
        some 1) ∧
    (∀ v, s.lastSyncedVersion = some v →
      (handleSync s (CommitOutcome.success files) now).1.lastSyncedVersion =
        some (v + 1)) ∧
    (handleSync s (CommitOutcome.success files) now).1.lastSyncedAt =
      some now ∧
    (handleSync s (CommitOutcome.success files) now).1.stagedChangeIds = [] ∧
    (∀ c ∈ stagedSubset s, ∀ nid cn, c.kind = ChangeKind.node →
      c.nodeId = some nid → c.currentNode = some cn →
      (c.changeType = ChangeType.added ∨ c.changeType = ChangeType.modified) →
      mapGet Node.id
        (handleSync s (CommitOutcome.success files) now).1.lastSyncedNodes
        nid = some cn) ∧
    (∀ c ∈ stagedSubset s, ∀ nid, c.kind = ChangeKind.node →
      c.nodeId = some nid → c.changeType = ChangeType.removed →
      mapGet Node.id
        (handleSync s (CommitOutcome.success files) now).1.lastSyncedNodes
        nid = none) ∧
    (∀ i, (∀ c ∈ stagedSubset s,
        ¬(c.kind = ChangeKind.node ∧ c.nodeId = some i)) →
      mapGet Node.id
        (handleSync s (CommitOutcome.success files) now).1.lastSyncedNodes i =
        mapGet Node.id s.lastSyncedNodes i) ∧
    (∀ c ∈ stagedSubset s, ∀ eid ce, c.kind = ChangeKind.edge →
      c.edgeId = some eid → c.currentEdge = some ce →
      (c.changeType = ChangeType.added ∨ c.changeType = ChangeType.modified) →
      mapGet Edge.id
        (handleSync s (CommitOutcome.success files) now).1.lastSyncedEdges
        eid = some ce) ∧
    (∀ c ∈ stagedSubset s, ∀ eid, c.kind = ChangeKind.edge →
      c.edgeId = some eid → c.changeType = ChangeType.removed →
      mapGet Edge.id
        (handleSync s (CommitOutcome.success files) now).1.lastSyncedEdges
        eid = none) ∧
    (∀ i, (∀ c ∈ stagedSubset s,
        ¬(c.kind = ChangeKind.edge ∧ c.edgeId = some i)) →
      mapGet Edge.id
        (handleSync s (CommitOutcome.success files) now).1.lastSyncedEdges i =
        mapGet Edge.id s.lastSyncedEdges i) ∧
    (∀ c ∈ s.pendingChanges, c.id ∉ s.stagedChangeIds →
      c ∈ computePendingChanges s.nodes s.edges
          (handleSync s (CommitOutcome.success files) now).1.lastSyncedNodes
          (handleSync s (CommitOutcome.success files) now).1.lastSyncedEdges ∧
      c.id ∉ (reconcile
          ((computePendingChanges s.nodes s.edges
            (handleSync s (CommitOutcome.success files) now).1.lastSyncedNodes
            (handleSync s
              (CommitOutcome.success files) now).1.lastSyncedEdges).map
            PendingChange.id)
          { staged := [],
            seen := s.pendingChanges.map PendingChange.id }).staged) := by
  have hne : s.stagedChangeIds.isEmpty = false := by
    cases h : s.stagedChangeIds
    · exact absurd h hstaged
    · rfl
  have hver : (handleSync s (CommitOutcome.success files) now).1.lastSyncedVersion =
      bumpVersion s.lastSyncedVersion := by
    simp [handleSync, hne]
  have hat : (handleSync s (CommitOutcome.success files) now).1.lastSyncedAt =
      some now := by
    simp [handleSync, hne]
  have hstg : (handleSync s (CommitOutcome.success files) now).1.stagedChangeIds =
      [] := by
    simp [handleSync, hne]
  have hnodes : (handleSync s (CommitOutcome.success files) now).1.lastSyncedNodes =
      foldNodeBaseline s.lastSyncedNodes (stagedSubset s) := by
    simp [handleSync, hne]
  have hedges : (handleSync s (CommitOutcome.success files) now).1.lastSyncedEdges =
      foldEdgeBaseline s.lastSyncedEdges (stagedSubset s) := by
    simp [handleSync, hne]
  have hpwP : s.pendingChanges.Pairwise (fun a b => ¬ sameKey a b) := by
    rw [hpend]
    exact computePendingChanges_pairwise_key hn hbn he hbe
  have hpwS : (stagedSubset s).Pairwise (fun a b => ¬ sameKey a b) :=
    List.Pairwise.sublist (List.filter_sublist _) hpwP
  have hmemP : ∀ c ∈ stagedSubset s,
      c ∈ computePendingChanges s.nodes s.edges s.lastSyncedNodes
        s.lastSyncedEdges := by
    intro c hc
    rw [← hpend]
    exact List.mem_of_mem_filter hc
  have hshapeN : ∀ c ∈ stagedSubset s, c.kind = ChangeKind.node →
      ∃ nid, c.nodeId = some nid ∧ c.id = nodeChangeId nid ∧
        (∀ cn, c.currentNode = some cn → cn.id = nid) :=
    fun c hc => (mem_pending_shape (hmemP c hc)).1
  have hshapeE : ∀ c ∈ stagedSubset s, c.kind = ChangeKind.edge →
      ∃ eid, c.edgeId = some eid ∧ c.id = edgeChangeId eid ∧
        (∀ ce, c.currentEdge = some ce → ce.id = eid) :=
    fun c hc => (mem_pending_shape (hmemP c hc)).2
  obtain ⟨hN1, hN2, hN3, hN4⟩ := foldNodeBaseline_spec hbn hpwS hshapeN
  obtain ⟨hE1, hE2, hE3, hE4⟩ := foldEdgeBaseline_spec hbe hpwS hshapeE
  refine ⟨?_, ?_, hat, hstg, ?_, ?_, ?_, ?_, ?_, ?_, ?_⟩
  · intro h0
    rw [hver, h0]
    rfl
  · intro v hv
    rw [hver, hv]
    rfl
  · intro c hc nid cn hk hnid hcn hct
    rw [hnodes]
    exact hN1 c hc nid cn hk hnid hcn hct
  · intro c hc nid hk hnid hct
    rw [hnodes]
    exact hN2 c hc nid hk hnid hct
  · intro i huntouched
    rw [hnodes]
    exact hN3 i huntouched
  · intro c hc eid ce hk heid hce hct
    rw [hedges]
    exact hE1 c hc eid ce hk heid hce hct
  · intro c hc eid hk heid hct
    rw [hedges]
    exact hE2 c hc eid hk heid hct
  · intro i huntouched
    rw [hedges]
    exact hE3 i huntouched
  · intro c hcp hnot
    have hcd : c ∈ computePendingChanges s.nodes s.edges s.lastSyncedNodes
        s.lastSyncedEdges := by
      rw [← hpend]
      exact hcp
    refine ⟨?_, ?_⟩
    · rw [hnodes, hedges]
      cases hk : c.kind with
      | node =>
        obtain ⟨nid, hnid, hcid, _⟩ := (mem_pending_shape hcd).1 hk
        have huntouch : ∀ d ∈ stagedSubset s,
            ¬(d.kind = ChangeKind.node ∧ d.nodeId = some nid) := by
          intro d hd hcon
          obtain ⟨nid₂, hn₂, hid₂, _⟩ :=
            (mem_pending_shape (hmemP d hd)).1 hcon.1
          have hnn : nid₂ = nid := Option.some_inj.mp (hn₂.symm.trans hcon.2)
          have hdid : d.id = c.id := by
            rw [hid₂, hnn, ← hcid]
          have hdc : s.stagedChangeIds.contains d.id = true :=
            (List.mem_filter.mp hd).2
          refine hnot ?_
          rw [← hdid]
          exact List.elem_iff.mp hdc
        refine pending_preserved_node hcd hk ?_ ?_
        · intro i hi
          have hin : i = nid := Option.some_inj.mp (hi.symm.trans hnid)
          subst hin
          exact hN3 i huntouch
        · intro p hp hpid
          have hpn : p.id = nid := Option.some_inj.mp (hpid.symm.trans hnid)
          refine hN4 p hp ?_
          rw [hpn]
          exact huntouch
      | edge =>
        obtain ⟨eid, heid, hcid, _⟩ := (mem_pending_shape hcd).2 hk
        have huntouch : ∀ d ∈ stagedSubset s,
            ¬(d.kind = ChangeKind.edge ∧ d.edgeId = some eid) := by
          intro d hd hcon
          obtain ⟨eid₂, he₂, hid₂, _⟩ :=
            (mem_pending_shape (hmemP d hd)).2 hcon.1
          have hnn : eid₂ = eid := Option.some_inj.mp (he₂.symm.trans hcon.2)
          have hdid : d.id = c.id := by
            rw [hid₂, hnn, ← hcid]
          have hdc : s.stagedChangeIds.contains d.id = true :=
            (List.mem_filter.mp hd).2
          refine hnot ?_
          rw [← hdid]
          exact List.elem_iff.mp hdc
        refine pending_preserved_edge hcd hk ?_ ?_
        · intro i hi
          have hin : i = eid := Option.some_inj.mp (hi.symm.trans heid)
          subst hin
          exact hE3 i huntouch
        · intro p hp hpid
          have hpn : p.id = eid := Option.some_inj.mp (hpid.symm.trans heid)
          refine hE4 p hp ?_
          rw [hpn]
          exact huntouch
    · refine reconcile_sticky_step ?_ (by simp)
      exact List.mem_map_of_mem PendingChange.id hcp

/-- Witness for C6: committing the single staged change `node:B` of
`sampleSyncState` sets version 1 and lands `B` in the baseline map. -/
theorem handleSync_success_spec_witness :
    (handleSync sampleSyncState
      (CommitOutcome.success none) 9).1.lastSyncedVersion = some 1 ∧
    mapGet Node.id
      (handleSync sampleSyncState
        (CommitOutcome.success none) 9).1.lastSyncedNodes "B" =
      some sampleNodeB :=
  ⟨(handleSync_success_spec sampleSyncState none 9 (by decide) (by decide)
      (by decide) (by decide) (by decide) (by decide)).1 (by decide),
   (handleSync_success_spec sampleSyncState none 9 (by decide) (by decide)
      (by decide) (by decide) (by decide)
      (by decide)).2.2.2.2.1 (addedNodeChange sampleNodeB) (by decide) "B"
      sampleNodeB (by decide) (by decide) (by decide) (Or.inl (by decide))⟩

/-- While a drag is in progress, the per-mutation effect never touches the
stacks, the drag flag, or the gesture snapshot. -/
theorem mutateGraph_dragging {t : EditorState} {g : Graph}
    (h : t.isDragging = true) :
    (mutateGraph t g).history = t.history ∧
    (mutateGraph t g).future = t.future ∧
    (mutateGraph t g).isDragging = true ∧
    (mutateGraph t g).dragStartSnapshot = t.dragStartSnapshot ∧
    (mutateGraph t g).graph = g := by
  unfold mutateGraph historyEffect
  cases hr : t.isRestoring <;> cases hs : t.skipHistoryOnce <;>
    simp [h, hr, hs]

theorem mutateAll_dragging {moves : List Graph} :
    ∀ {t : EditorState}, t.isDragging = true →
      (mutateAll t moves).history = t.history ∧
      (mutateAll t moves).future = t.future ∧
      (mutateAll t moves).isDragging = true ∧
      (mutateAll t moves).dragStartSnapshot = t.dragStartSnapshot ∧
      (mutateAll t moves).graph = moves.getLastD t.graph := by
  induction moves with
  | nil => intro t h; exact ⟨rfl, rfl, h, rfl, rfl⟩
  | cons g ms ih =>
    intro t h
    obtain ⟨h1, h2, h3, h4, h5⟩ := @mutateGraph_dragging _ g h
    obtain ⟨i1, i2, i3, i4, i5⟩ := ih h3
    refine ⟨i1.trans h1, i2.trans h2, i3, i4.trans h4, ?_⟩
    rw [show mutateAll t (g :: ms) = mutateAll (mutateGraph t g) ms from rfl,
      i5, h5]
    cases ms <;> simp [List.getLastD]

/-- C7: a node-drag gesture (drag start, any number of intermediate
mutations, drag stop) whose end graph strictly equals the drag-start
snapshot leaves the history untouched; a gesture whose end graph differs
pushes exactly one entry — the drag-start snapshot — and clears the future
stack. -/
theorem drag_coalescing (s : EditorState) (moves : List Graph)
    (h : s.isDragging = false) :
    (areGraphsEqual s.graph.nodes s.graph.edges
        (mutateAll (onNodeDragStart s) moves).graph.nodes
        (mutateAll (onNodeDragStart s) moves).graph.edges = true →
      (onNodeDragStop (mutateAll (onNodeDragStart s) moves)).history =
        s.history) ∧
    (areGraphsEqual s.graph.nodes s.graph.edges
        (mutateAll (onNodeDragStart s) moves).graph.nodes
        (mutateAll (onNodeDragStart s) moves).graph.edges = false →
      (onNodeDragStop (mutateAll (onNodeDragStart s) moves)).history =
        pushBounded s.history s.graph ∧
      (onNodeDragStop (mutateAll (onNodeDragStart s) moves)).future = []) := by
  have hstart : onNodeDragStart s =
      { s with isDragging := true, dragStartSnapshot := some s.graph } := by
    unfold onNodeDragStart
    rw [if_neg (by simp [h])]
  obtain ⟨h1, h2, h3, h4, _⟩ :=
    @mutateAll_dragging moves (onNodeDragStart s) (by rw [hstart])
  have hdh : (onNodeDragStart s).history = s.history := by rw [hstart]
  have hds : (onNodeDragStart s).dragStartSnapshot = some s.graph := by
    rw [hstart]
  have hsnap : (mutateAll (onNodeDragStart s) moves).dragStartSnapshot =
      some s.graph := h4.trans hds
  constructor
  · intro heq
    unfold onNodeDragStop
    rw [if_pos h3]
    simp only [hsnap]
    rw [if_pos heq]
    exact h1.trans hdh
  · intro hne
    unfold onNodeDragStop
    rw [if_pos h3]
    simp only [hsnap]
    rw [if_neg (by simp [hne])]
    refine ⟨?_, rfl⟩
    simp only [h1.trans hdh]

/-- Witness for C7: a two-move gesture back to the start adds no history
entry; a gesture ending elsewhere adds exactly the start snapshot. -/
theorem drag_coalescing_witness :
    (onNodeDragStop (mutateAll (onNodeDragStart
        (initialEditorState (dragGraph 0)))
        [dragGraph 5, dragGraph 0])).history = [] ∧
    (onNodeDragStop (mutateAll (onNodeDragStart
        (initialEditorState (dragGraph 0)))
        [dragGraph 5, dragGraph 7])).history =
      pushBounded [] (dragGraph 0) :=
  ⟨(drag_coalescing (initialEditorState (dragGraph 0))
      [dragGraph 5, dragGraph 0] (by decide)).1 (by decide),
   ((drag_coalescing (initialEditorState (dragGraph 0))
      [dragGraph 5, dragGraph 7] (by decide)).2 (by decide)).1⟩

theorem pushBounded_length_le_limit (stack : List Graph) (x : Graph) :
    (pushBounded stack x).length ≤ HISTORY_LIMIT := by
  simp only [pushBounded, List.length_drop, List.length_append,
    List.length_cons, List.length_nil, HISTORY_LIMIT]
  omega

theorem pushBounded_length_le_succ (stack : List Graph) (x : Graph) :
    (pushBounded stack x).length ≤ stack.length + 1 := by
  simp only [pushBounded, List.length_drop, List.length_append,
    List.length_cons, List.length_nil]
  omega

theorem histInv_effect {s : EditorState} (h : histInv s) :
    histInv (historyEffect s) := by
  unfold historyEffect
  cases hr : s.isRestoring
  · cases hk : s.skipHistoryOnce
    · cases hd : s.isDragging
      · simp only [Bool.false_eq_true, if_false]
        cases hp : s.prevGraph with
        | none => exact h
        | some previous =>
          by_cases heq : areGraphsEqual previous.nodes previous.edges
              s.graph.nodes s.graph.edges = true
          · simp only [heq, if_true]
            exact h
          · simp only [heq, Bool.false_eq_true, if_false]
            unfold histInv
            simp only [List.length_nil, Nat.add_zero]
            exact pushBounded_length_le_limit s.history previous
      · simp only [hd, Bool.false_eq_true, if_false, if_true]
        exact h
    · simp only [hk, Bool.false_eq_true, if_false, if_true]
      exact h
  · simp only [hr, if_true]
    exact h

theorem histInv_step {s : EditorState} (h : histInv s) (e : EditorEv) :
    histInv (stepEditor s e) := by
  cases e with
  | mutate g => exact histInv_effect h
  | dragStart =>
    unfold stepEditor onNodeDragStart
    by_cases hd : s.isDragging = true <;> simp [hd] <;> exact h
  | dragStop =>
    unfold stepEditor onNodeDragStop
    by_cases hd : s.isDragging = true
    · simp only [hd, if_true]
      cases hsnap : s.dragStartSnapshot with
      | none => exact h
      | some startSnapshot =>
        by_cases heq : areGraphsEqual startSnapshot.nodes startSnapshot.edges
            s.graph.nodes s.graph.edges = true
        · simp only [heq, if_true]
          exact h
        · simp only [heq, Bool.false_eq_true, if_false]
          unfold histInv
          simp only [List.length_nil, Nat.add_zero]
          exact pushBounded_length_le_limit s.history startSnapshot
    · simp only [hd, if_false]
      exact h
  | undoEv =>
    unfold stepEditor undo
    cases hl : s.history.getLast? with
    | none => exact h
    | some previous =>
      refine histInv_effect ?_
      have hne : s.history ≠ [] := by
        intro hn
        rw [hn] at hl
        cases hl
      have hpos : 1 ≤ s.history.length := by
        cases hh : s.history
        · exact absurd hh hne
        · simp [hh]
      unfold histInv at h ⊢
      simp only [List.length_dropLast, List.length_append, List.length_cons,
        List.length_nil]
      omega
  | redoEv =>
    unfold stepEditor redo
    cases hl : s.future.getLast? with
    | none => exact h
    | some next =>
      refine histInv_effect ?_
      have hne : s.future ≠ [] := by
        intro hn
        rw [hn] at hl
        cases hl
      have hpos : 1 ≤ s.future.length := by
        cases hh : s.future
        · exact absurd hh hne
        · simp [hh]
      have hpb := pushBounded_length_le_succ s.history s.graph
      unfold histInv at h ⊢
      simp only [List.length_dropLast]
      omega

theorem histInv_foldl :
    ∀ (t : List EditorEv) (s : EditorState), histInv s →
      histInv (t.foldl stepEditor s)
  | [], s, hs => hs
  | e :: t, s, hs => by
    rw [List.foldl_cons]
    exact histInv_foldl t _ (histInv_step hs e)

theorem histInv_run (g : Graph) (evs : List EditorEv) :
    histInv (runEditor (initialEditorState g) evs) := by
  refine histInv_foldl evs _ ?_
  unfold histInv initialEditorState HISTORY_LIMIT
  simp

/-- C9: starting from the mount state, after every sequence of operations
(mutations, drag start/stop, undo, redo) both stacks hold at most
`HISTORY_LIMIT` (50) snapshots — in particular undo's future push never
exceeds the capacity — and a bounded push at full capacity evicts the oldest
entry first. -/
theorem history_capacity_spec :
    (∀ (g : Graph) (evs : List EditorEv),
      (runEditor (initialEditorState g) evs).history.length ≤ HISTORY_LIMIT ∧
      (runEditor (initialEditorState g) evs).future.length ≤ HISTORY_LIMIT) ∧
    (∀ (stack : List Graph) (x : Graph), stack.length = HISTORY_LIMIT →
      pushBounded stack x = stack.drop 1 ++ [x]) := by
  constructor
  · intro g evs
    have h := histInv_run g evs
    unfold histInv at h
    omega
  · intro stack x hlen
    unfold pushBounded
    rw [hlen, show HISTORY_LIMIT + 1 - HISTORY_LIMIT = 1 from by
      unfold HISTORY_LIMIT; omega]
    exact List.drop_append_of_le_length (by rw [hlen]; unfold HISTORY_LIMIT; omega)

/-- Witness for C9: a concrete run (mutate, undo, redo, drag cycle) stays in
bounds, and a full 50-entry stack evicts its head on push. -/
theorem history_capacity_spec_witness :
    ((runEditor (initialEditorState (dragGraph 0))
        [EditorEv.mutate (dragGraph 1), EditorEv.undoEv, EditorEv.redoEv,
          EditorEv.dragStart, EditorEv.mutate (dragGraph 2),
          EditorEv.dragStop]).history.length ≤ HISTORY_LIMIT ∧
      (runEditor (initialEditorState (dragGraph 0))
        [EditorEv.mutate (dragGraph 1), EditorEv.undoEv, EditorEv.redoEv,
          EditorEv.dragStart, EditorEv.mutate (dragGraph 2),
          EditorEv.dragStop]).future.length ≤ HISTORY_LIMIT) ∧
    pushBounded (List.replicate 50 (dragGraph 0)) (dragGraph 1) =
      (List.replicate 50 (dragGraph 0)).drop 1 ++ [dragGraph 1] :=
  ⟨history_capacity_spec.1 (dragGraph 0)
      [EditorEv.mutate (dragGraph 1), EditorEv.undoEv, EditorEv.redoEv,
        EditorEv.dragStart, EditorEv.mutate (dragGraph 2),
        EditorEv.dragStop],
   history_capacity_spec.2 (List.replicate 50 (dragGraph 0)) (dragGraph 1)
      (by decide)⟩

/-- Dropping the last element and re-appending it rebuilds a cons list. -/
theorem cons_dropLast_getLastD {α : Type u} (a : α) (l : List α) :
    (a :: l).dropLast ++ [l.getLastD a] = a :: l := by
  induction l generalizing a with
  | nil => rfl
  | cons b t ih =>
    rw [List.getLastD_cons]
    show a :: ((b :: t).dropLast ++ [t.getLastD b]) = a :: b :: t
    rw [ih b]

/-- Below capacity, the bounded push is a plain append. -/
theorem pushBounded_eq_append {stack : List Graph} (x : Graph)
    (h : stack.length < HISTORY_LIMIT) :
    pushBounded stack x = stack ++ [x] := by
  unfold pushBounded
  rw [show stack.length + 1 - HISTORY_LIMIT = 0 from by omega]
  rfl

/-- `undo` on a non-empty history pops the last snapshot, pushes the
current graph onto the future, and the triggered effect re-syncs
`prevGraph` without pushing. -/
theorem undo_concat {t : EditorState} {H : List Graph} {x : Graph}
    (hH : t.history = H ++ [x]) :
    undo t =
      { graph := x, history := H, future := t.future ++ [t.graph],
        prevGraph := some x, isRestoring := false,
        skipHistoryOnce := t.skipHistoryOnce, isDragging := t.isDragging,
        dragStartSnapshot := t.dragStartSnapshot } := by
  unfold undo
  simp only [hH, List.getLast?_concat, List.dropLast_concat]
  unfold historyEffect
  simp

/-- `redo` on a non-empty future pops its last entry and pushes the
current graph onto the history (capacity-bounded). -/
theorem redo_concat {t : EditorState} {F : List Graph} {x : Graph}
    (hF : t.future = F ++ [x]) :
    redo t =
      { graph := x, history := pushBounded t.history t.graph, future := F,
        prevGraph := some x, isRestoring := false,
        skipHistoryOnce := t.skipHistoryOnce, isDragging := t.isDragging,
        dragStartSnapshot := t.dragStartSnapshot } := by
  unfold redo
  simp only [hF, List.getLast?_concat, List.dropLast_concat]
  unfold historyEffect
  simp

/-- A strict-change mutation from an idle in-sync state pushes the old
graph and clears the future. -/
theorem mutateGraph_idle {s : EditorState} {g : Graph}
    (hrest : s.isRestoring = false) (hskip : s.skipHistoryOnce = false)
    (hdrag : s.isDragging = false) (hprev : s.prevGraph = some s.graph)
    (hcap : s.history.length < HISTORY_LIMIT)
    (hne : areGraphsEqual s.graph.nodes s.graph.edges g.nodes g.edges
      = false) :
    mutateGraph s g = histState s [g] [] := by
  unfold mutateGraph historyEffect histState
  simp only [hrest, hskip, hdrag, hprev, hne]
  simp [pushBounded_eq_append _ hcap]

/-- Navigation states compose: one recorded mutation followed by `d` more
is the navigation state of `g :: d`. -/
theorem histState_compose (s : EditorState) (g : Graph) (d : List Graph) :
    histState (histState s [g] []) d [] = histState s (g :: d) [] := by
  unfold histState
  simp only [List.getLastD_cons, List.getLastD_nil]
  simp

/-- A run of strict-change mutations from an idle state lands in the
canonical navigation state with everything recorded and nothing undone. -/
theorem mutateAll_histState :
    ∀ (gs : List Graph) (s : EditorState),
    s.isRestoring = false → s.skipHistoryOnce = false →
    s.isDragging = false → s.prevGraph = some s.graph → s.future = [] →
    strictChainB s.graph gs = true →
    s.history.length + gs.length ≤ HISTORY_LIMIT →
    mutateAll s gs = histState s gs [] := by
  intro gs
  induction gs with
  | nil =>
    intro s h1 h2 h3 h4 h5 _ _
    unfold mutateAll histState
    simp [h1, h2, h3, h4, h5]
    cases s
    simp only at h1 h2 h3 h4 h5
    simp [h1, h2, h3, h4, h5]
  | cons g t ih =>
    intro s h1 h2 h3 h4 h5 hchain hcap
    have hlen : t.length + 1 = (g :: t).length := rfl
    have hne : areGraphsEqual s.graph.nodes s.graph.edges g.nodes g.edges
        = false := by
      have := hchain
      unfold strictChainB at this
      simp only [Bool.and_eq_true, Bool.not_eq_true'] at this
      exact this.1
    have hchain' : strictChainB g t = true := by
      have := hchain
      unfold strictChainB at this
      simp only [Bool.and_eq_true] at this
      exact this.2
    have hstep : mutateAll s (g :: t) = mutateAll (mutateGraph s g) t := rfl
    rw [hstep, mutateGraph_idle h1 h2 h3 h4 (by simp at hcap; omega) hne]
    rw [ih (histState s [g] []) rfl rfl rfl rfl rfl hchain'
      (by simp [histState]; simp at hcap; omega)]
    exact histState_compose s g t

/-- `undo` moves the boundary of the navigation state one mutation to the
left. -/
theorem undo_histState (s : EditorState) (d : List Graph) (g : Graph)
    (r : List Graph) :
    undo (histState s (d ++ [g]) r) = histState s d (g :: r) := by
  have hH : (histState s (d ++ [g]) r).history
      = (s.history ++ (s.graph :: d).dropLast) ++ [d.getLastD s.graph] := by
    show s.history ++ (s.graph :: (d ++ [g])).dropLast = _
    rw [show s.graph :: (d ++ [g]) = (s.graph :: d) ++ [g] from rfl]
    rw [List.dropLast_concat, List.append_assoc, cons_dropLast_getLastD]
  rw [undo_concat hH]
  unfold histState
  simp [List.getLastD_concat]

/-- Iterated `undo` moves any suffix of the recorded mutations onto the
future side. -/
theorem undoN_histState (s : EditorState) :
    ∀ (dtl d r : List Graph),
    undoN dtl.length (histState s (d ++ dtl) r) = histState s d (dtl ++ r)
    := by
  intro dtl
  induction dtl using List.reverseRecOn with
  | nil =>
    intro d r
    simp [undoN]
  | append_singleton t g ih =>
    intro d r
    rw [show (t ++ [g]).length = t.length + 1 from by simp]
    show undoN t.length (undo (histState s (d ++ (t ++ [g])) r)) = _
    rw [show d ++ (t ++ [g]) = (d ++ t) ++ [g] from
      (List.append_assoc d t [g]).symm]
    rw [undo_histState s (d ++ t) g r, ih d (g :: r)]
    simp

/-- `redo` moves the boundary one mutation to the right, provided the
re-push stays below capacity. -/
theorem redo_histState {s : EditorState} (d : List Graph) (g : Graph)
    (r : List Graph)
    (hcap : s.history.length + d.length < HISTORY_LIMIT) :
    redo (histState s d (g :: r)) = histState s (d ++ [g]) r := by
  have hF : (histState s d (g :: r)).future = r.reverse ++ [g] := by
    show (g :: r).reverse = _
    exact List.reverse_cons g r
  rw [redo_concat hF]
  have hlen : (s.history ++ (s.graph :: d).dropLast).length < HISTORY_LIMIT
      := by
    simp [List.length_dropLast]
    omega
  show ({ graph := g,
          history := pushBounded (histState s d (g :: r)).history
            (histState s d (g :: r)).graph,
          future := r.reverse,
          prevGraph := some g, isRestoring := false,
          skipHistoryOnce := (histState s d (g :: r)).skipHistoryOnce,
          isDragging := (histState s d (g :: r)).isDragging,
          dragStartSnapshot := (histState s d (g :: r)).dragStartSnapshot }
        : EditorState) = _
  unfold histState
  simp only [pushBounded_eq_append _ hlen]
  rw [show s.graph :: (d ++ [g]) = (s.graph :: d) ++ [g] from rfl]
  rw [List.dropLast_concat, List.append_assoc, cons_dropLast_getLastD]
  simp [List.getLastD_concat]

/-- Iterated `redo` replays every undone mutation, provided the whole
navigation fits in the capacity. -/
theorem redoN_histState (s : EditorState) :
    ∀ (r d : List Graph),
    s.history.length + d.length + r.length ≤ HISTORY_LIMIT →
    redoN r.length (histState s d r) = histState s (d ++ r) [] := by
  intro r
  induction r with
  | nil =>
    intro d _
    simp [redoN]
  | cons g t ih =>
    intro d hcap
    show redoN t.length (redo (histState s d (g :: t))) = _
    rw [redo_histState d g t (by simp at hcap; omega)]
    rw [ih (d ++ [g]) (by simp at hcap ⊢; omega)]
    simp

/-- C8 counterexample: after 51 mutations, each a strict-equality-detectable
change, the oldest history snapshot has been evicted (capacity 50), so the
51st undo cannot reach the pre-run graph: the live graph stays at the state
after the first mutation, while the claim's enumeration of intermediate
states expects the pre-run graph at that point. -/
theorem undo_redo_duality_cex :
    strictChainB cexStart.graph cexMuts = true ∧
    cexMuts.length = 51 ∧
    (undoN 51 (mutateAll cexStart cexMuts)).graph = dragGraph 1 ∧
    dragGraph 1 ≠ dragGraph 0 ∧
    (cexMuts.take (51 - 51)).getLastD cexStart.graph = dragGraph 0 := by
  decide

/-- C8: undo/redo duality, corrected by a capacity bound.  From an idle
state, after a run of strict-change mutations that fits in the history
capacity, undoing `n` times and redoing `n` times restores the exact state;
each intermediate undo state shows the graph after the matching earlier
mutation; undo with empty history and redo with empty future are no-ops;
and a restore itself pushes nothing: undo only ever shrinks the history by
its popped entry and merely re-syncs the previous-graph reference to the
restored snapshot.  Without the capacity bound the intermediate-state
clause fails (see the counterexample). -/
theorem undo_redo_duality_spec (s : EditorState) (gs : List Graph)
    (hrest : s.isRestoring = false) (hskip : s.skipHistoryOnce = false)
    (hdrag : s.isDragging = false) (hprev : s.prevGraph = some s.graph)
    (hfut : s.future = [])
    (hchain : strictChainB s.graph gs = true)
    (hcap : s.history.length + gs.length ≤ HISTORY_LIMIT) :
    redoN gs.length (undoN gs.length (mutateAll s gs)) = mutateAll s gs ∧
    (∀ k, k ≤ gs.length →
      (undoN k (mutateAll s gs)).graph =
        (gs.take (gs.length - k)).getLastD s.graph) ∧
    (∀ t : EditorState, t.history = [] → undo t = t) ∧
    (∀ t : EditorState, t.future = [] → redo t = t) ∧
    (∀ t : EditorState, t.history ≠ [] →
      (undo t).history = t.history.dropLast ∧
      (undo t).prevGraph = some (undo t).graph) := by
  have hM : mutateAll s gs = histState s gs [] :=
    mutateAll_histState gs s hrest hskip hdrag hprev hfut hchain hcap
  refine ⟨?_, ?_, ?_, ?_, ?_⟩
  · rw [hM]
    have h1 : undoN gs.length (histState s gs []) = histState s [] gs := by
      have h := undoN_histState s gs [] []
      simpa using h
    rw [h1]
    have h2 := redoN_histState s gs [] (by simpa using hcap)
    simpa using h2
  · intro k hk
    rw [hM]
    have hsplit : gs = gs.take (gs.length - k) ++ gs.drop (gs.length - k) :=
      (List.take_append_drop _ _).symm
    have hlen : (gs.drop (gs.length - k)).length = k := by
      rw [List.length_drop]
      omega
    have h := undoN_histState s (gs.drop (gs.length - k))
      (gs.take (gs.length - k)) []
    rw [← hsplit, hlen] at h
    rw [h]
    rfl
  · intro t ht
    unfold undo
    rw [ht]
    rfl
  · intro t ht
    unfold redo
    rw [ht]
    rfl
  · intro t ht
    have hH : t.history = t.history.dropLast ++ [t.history.getLast ht] :=
      (List.dropLast_append_getLast ht).symm
    rw [undo_concat hH]
    exact ⟨rfl, rfl⟩

/-- Witness for C8: a concrete two-mutation run round-trips under
undo-undo-redo-redo, and one undo shows the graph after the first
mutation. -/
theorem undo_redo_duality_spec_witness :
    redoN 2 (undoN 2 (mutateAll (initialEditorState (dragGraph 0))
        [dragGraph 1, dragGraph 2]))
      = mutateAll (initialEditorState (dragGraph 0))
        [dragGraph 1, dragGraph 2] ∧
    (undoN 1 (mutateAll (initialEditorState (dragGraph 0))
        [dragGraph 1, dragGraph 2])).graph = dragGraph 1 := by
  have h := undo_redo_duality_spec (initialEditorState (dragGraph 0))
    [dragGraph 1, dragGraph 2] rfl rfl rfl rfl rfl (by decide) (by decide)
  refine ⟨h.1, ?_⟩
  have h2 := h.2.1 1 (by decide)
  exact h2.trans (by decide)

theorem handleRevertChange_graph (s : RevertState) {changeId : String}
    {c : PendingChange}
    (hfind : s.pendingChanges.find? (fun item => item.id == changeId)
      = some c) :
    (handleRevertChange changeId s).nodes
      = (if c.kind == ChangeKind.node then revertNodes c s.nodes
         else s.nodes) ∧
    (handleRevertChange changeId s).edges
      = (if c.kind == ChangeKind.node then s.edges
         else revertEdges c s.edges) := by
  unfold handleRevertChange
  rw [hfind]
  by_cases hk : (c.kind == ChangeKind.node) = true
  · simp [hk]
  · simp [hk]

/-- Every diff entry of a given pass has the form its pass constructs, so a
change id determines the pass and the entity id; if no current node with
the id survives the upsert pass and no baseline node with the id survives
the removal pass, the diff holds no entry under `nodeChangeId nid`. -/
theorem no_node_id_entry {nodes bn : List Node} {edges be : List Edge}
    {nid : String}
    (hup : ∀ x ∈ nodes, x.id = nid → nodeUpsertAt bn x = none)
    (hrem : ∀ p ∈ bn, p.id = nid → nodeRemovalAt nodes p = none) :
    ∀ c ∈ computePendingChanges nodes edges bn be,
      c.id ≠ nodeChangeId nid := by
  intro c hc hid
  have hraw : c ∈ rawChanges nodes edges bn be := List.mem_mergeSort.mp hc
  unfold rawChanges at hraw
  simp only [List.append_assoc, List.mem_append] at hraw
  rcases hraw with hA | hB | hC | hD
  · obtain ⟨m, hmmem, hfm⟩ := List.mem_filterMap.mp hA
    obtain ⟨_, hcid, _⟩ := nodeUpsertAt_shape hfm
    have hmid : m.id = nid := nodeChangeId_inj (hcid.symm.trans hid)
    rw [hup m hmmem hmid] at hfm
    cases hfm
  · obtain ⟨q, hqmem, hfq⟩ := List.mem_filterMap.mp hB
    obtain ⟨_, hcid, _⟩ := nodeRemovalAt_shape hfq
    have hqid : q.id = nid := nodeChangeId_inj (hcid.symm.trans hid)
    rw [hrem q hqmem hqid] at hfq
    cases hfq
  · obtain ⟨e, _, hfe⟩ := List.mem_filterMap.mp hC
    obtain ⟨_, hcid, _⟩ := edgeUpsertAt_shape hfe
    exact nodeChangeId_ne_edgeChangeId nid e.id (hid.symm.trans hcid)
  · obtain ⟨q, _, hfq⟩ := List.mem_filterMap.mp hD
    obtain ⟨_, hcid, _⟩ := edgeRemovalAt_shape hfq
    exact nodeChangeId_ne_edgeChangeId nid q.id (hid.symm.trans hcid)

/-- The edge analogue of `no_node_id_entry`. -/
theorem no_edge_id_entry {nodes bn : List Node} {edges be : List Edge}
    {eid : String}
    (hup : ∀ x ∈ edges, x.id = eid → edgeUpsertAt be x = none)
    (hrem : ∀ p ∈ be, p.id = eid → edgeRemovalAt edges p = none) :
    ∀ c ∈ computePendingChanges nodes edges bn be,
      c.id ≠ edgeChangeId eid := by
  intro c hc hid
  have hraw : c ∈ rawChanges nodes edges bn be := List.mem_mergeSort.mp hc
  unfold rawChanges at hraw
  simp only [List.append_assoc, List.mem_append] at hraw
  rcases hraw with hA | hB | hC | hD
  · obtain ⟨m, _, hfm⟩ := List.mem_filterMap.mp hA
    obtain ⟨_, hcid, _⟩ := nodeUpsertAt_shape hfm
    exact nodeChangeId_ne_edgeChangeId m.id eid (hcid.symm.trans hid)
  · obtain ⟨q, _, hfq⟩ := List.mem_filterMap.mp hB
    obtain ⟨_, hcid, _⟩ := nodeRemovalAt_shape hfq
    exact nodeChangeId_ne_edgeChangeId q.id eid (hcid.symm.trans hid)
  · obtain ⟨m, hmmem, hfm⟩ := List.mem_filterMap.mp hC
    obtain ⟨_, hcid, _⟩ := edgeUpsertAt_shape hfm
    have hmid : m.id = eid := edgeChangeId_inj (hcid.symm.trans hid)
    rw [hup m hmmem hmid] at hfm
    cases hfm
  · obtain ⟨q, hqmem, hfq⟩ := List.mem_filterMap.mp hD
    obtain ⟨_, hcid, _⟩ := edgeRemovalAt_shape hfq
    have hqid : q.id = eid := edgeChangeId_inj (hcid.symm.trans hid)
    rw [hrem q hqmem hqid] at hfq
    cases hfq

/-- Membership in the diff output, resolved into the six constructor cases
with their defining pass conditions. -/
theorem mem_pending_cases {nodes bn : List Node} {edges be : List Edge}
    {c : PendingChange} (hc : c ∈ computePendingChanges nodes edges bn be) :
    (∃ n, n ∈ nodes ∧ mapGet Node.id bn n.id = none ∧
      c = addedNodeChange n) ∨
    (∃ n p, n ∈ nodes ∧ mapGet Node.id bn n.id = some p ∧
      isNodeEqual n p = false ∧ c = modifiedNodeChange n p) ∨
    (∃ p, p ∈ bn ∧ mapGet Node.id nodes p.id = none ∧
      c = removedNodeChange p) ∨
    (∃ e, e ∈ edges ∧ mapGet Edge.id be e.id = none ∧
      c = addedEdgeChange e) ∨
    (∃ e p, e ∈ edges ∧ mapGet Edge.id be e.id = some p ∧
      isEdgeEqual e p = false ∧ c = modifiedEdgeChange e p) ∨
    (∃ p, p ∈ be ∧ mapGet Edge.id edges p.id = none ∧
      c = removedEdgeChange p) := by
  have hraw : c ∈ rawChanges nodes edges bn be := List.mem_mergeSort.mp hc
  unfold rawChanges at hraw
  simp only [List.append_assoc, List.mem_append] at hraw
  rcases hraw with hA | hB | hC | hD
  · obtain ⟨n, hmem, hfn⟩ := List.mem_filterMap.mp hA
    rcases nodeUpsertAt_eq_some_iff.mp hfn with ⟨h1, h2⟩ | ⟨p, h1, h2, h3⟩
    · exact Or.inl ⟨n, hmem, h1, h2⟩
    · exact Or.inr (Or.inl ⟨n, p, hmem, h1, h2, h3⟩)
  · obtain ⟨p, hmem, hfp⟩ := List.mem_filterMap.mp hB
    obtain ⟨h1, h2⟩ := nodeRemovalAt_eq_some_iff.mp hfp
    exact Or.inr (Or.inr (Or.inl ⟨p, hmem, h1, h2⟩))
  · obtain ⟨e, hmem, hfe⟩ := List.mem_filterMap.mp hC
    rcases edgeUpsertAt_eq_some_iff.mp hfe with ⟨h1, h2⟩ | ⟨p, h1, h2, h3⟩
    · exact Or.inr (Or.inr (Or.inr (Or.inl ⟨e, hmem, h1, h2⟩)))
    · exact Or.inr (Or.inr (Or.inr (Or.inr (Or.inl ⟨e, p, hmem, h1, h2, h3⟩))))
  · obtain ⟨p, hmem, hfp⟩ := List.mem_filterMap.mp hD
    obtain ⟨h1, h2⟩ := edgeRemovalAt_eq_some_iff.mp hfp
    exact Or.inr (Or.inr (Or.inr (Or.inr (Or.inr ⟨p, hmem, h1, h2⟩))))

/-- On duplicate-free entity ids, the diff output has duplicate-free change
ids. -/
theorem pending_ids_nodup {nodes bn : List Node} {edges be : List Edge}
    (hn : (nodes.map Node.id).Nodup) (hbn : (bn.map Node.id).Nodup)
    (he : (edges.map Edge.id).Nodup) (hbe : (be.map Edge.id).Nodup) :
    ((computePendingChanges nodes edges bn be).map
      PendingChange.id).Nodup := by
  have hpw := computePendingChanges_pairwise_key hn hbn he hbe
  have hpw' : (computePendingChanges nodes edges bn be).Pairwise
      (fun a b => a.id ≠ b.id) := by
    refine hpw.imp_of_mem ?_
    intro a b ha hb hk heq
    apply hk
    refine ⟨?_, heq⟩
    cases hak : a.kind <;> cases hbk : b.kind
    · rfl
    · obtain ⟨nida, _, haid, _⟩ := (mem_pending_shape ha).1 hak
      obtain ⟨eidb, _, hbid, _⟩ := (mem_pending_shape hb).2 hbk
      exact absurd (haid.symm.trans (heq.trans hbid))
        (nodeChangeId_ne_edgeChangeId nida eidb)
    · obtain ⟨eida, _, haid, _⟩ := (mem_pending_shape ha).2 hak
      obtain ⟨nidb, _, hbid, _⟩ := (mem_pending_shape hb).1 hbk
      exact absurd (hbid.symm.trans (heq.symm.trans haid))
        (nodeChangeId_ne_edgeChangeId nidb eida)
    · rfl
  exact List.Pairwise.map PendingChange.id (fun a b h => h) hpw'

/-- C5 (corrected): reverting a pending change and recomputing the diff
against the same baseline cancels the entry, for added node and edge
changes unconditionally, and for removed/modified changes provided the
reinserted previous entity is loose-equal to the baseline entity — for
edges, plain self-equality, and for nodes equality of
`attachNodeType previousNode` with `previousNode`, since the revert pipes
the previous node through `attachNodeType`.  Without that proviso the
round trip fails (see the counterexample). -/
theorem handleRevertChange_spec
    (nodes bn : List Node) (edges be : List Edge) (staged : List String)
    (hn : (nodes.map Node.id).Nodup) (hbn : (bn.map Node.id).Nodup)
    (he : (edges.map Edge.id).Nodup) (hbe : (be.map Edge.id).Nodup)
    (c : PendingChange) (hc : c ∈ computePendingChanges nodes edges bn be)
    (hnodeOK : ∀ p : Node, c.previousNode = some p →
      isNodeEqual (attachNodeType p none) p = true)
    (hedgeOK : ∀ p : Edge, c.previousEdge = some p →
      isEdgeEqual p p = true) :
    ∀ c' ∈ computePendingChanges
        (handleRevertChange c.id
          { nodes := nodes, edges := edges, stagedChangeIds := staged,
            pendingChanges := computePendingChanges nodes edges bn be }).nodes
        (handleRevertChange c.id
          { nodes := nodes, edges := edges, stagedChangeIds := staged,
            pendingChanges := computePendingChanges nodes edges bn be }).edges
        bn be,
      c'.id ≠ c.id := by
  have hfind : (computePendingChanges nodes edges bn be).find?
      (fun item => item.id == c.id) = some c :=
    find?_key_eq_of_nodup (pending_ids_nodup hn hbn he hbe) hc rfl
  have hge := handleRevertChange_graph
    { nodes := nodes, edges := edges, stagedChangeIds := staged,
      pendingChanges := computePendingChanges nodes edges bn be }
    hfind
  intro c' hc' hid
  rcases mem_pending_cases hc with
    ⟨n, hmem, hmg, rfl⟩ | ⟨n, p, hmem, hmg, hneq, rfl⟩ |
    ⟨p, hmemb, hmg, rfl⟩ | ⟨e, hmem, hmg, rfl⟩ |
    ⟨e, p, hmem, hmg, hneq, rfl⟩ | ⟨p, hmemb, hmg, rfl⟩
  · -- added node: the live node is deleted
    have hNodes : (handleRevertChange (addedNodeChange n).id
        { nodes := nodes, edges := edges, stagedChangeIds := staged,
          pendingChanges := computePendingChanges nodes edges bn be }).nodes
        = nodes.filter (fun node => !(some node.id == some n.id)) := by
      rw [hge.1]
      rfl
    rw [hNodes, hge.2] at hc'
    refine no_node_id_entry ?_ ?_ c' hc' hid
    · intro x hx hxid
      have hfil := (List.mem_filter.mp hx).2
      simp [hxid] at hfil
    · intro q hq hqid
      exact absurd hqid (mapGet_eq_none_iff.mp hmg q hq)
  · -- modified node: the live node is overwritten with the attached
    -- previous node
    obtain ⟨hpmem, hpid⟩ := mapGet_eq_some_mem hmg
    have hattach := hnodeOK p rfl
    have hNodes : (handleRevertChange (modifiedNodeChange n p).id
        { nodes := nodes, edges := edges, stagedChangeIds := staged,
          pendingChanges := computePendingChanges nodes edges bn be }).nodes
        = nodes.map (fun node =>
            if some node.id == some n.id then attachNodeType p none
            else node) := by
      rw [hge.1]
      rfl
    rw [hNodes, hge.2] at hc'
    refine no_node_id_entry ?_ ?_ c' hc' hid
    · intro x hx hxid
      obtain ⟨y, hy, hfy⟩ := List.mem_map.mp hx
      by_cases hyid : (some y.id == some n.id) = true
      · rw [if_pos hyid] at hfy
        subst hfy
        unfold nodeUpsertAt
        rw [show (attachNodeType p none).id = p.id from rfl, hpid, hmg]
        simp [hattach]
      · rw [if_neg hyid] at hfy
        subst hfy
        exact absurd (by simp [hxid]) hyid
    · intro q hq hqid
      have hsome : ∃ x ∈ nodes.map (fun node =>
          if some node.id == some n.id then attachNodeType p none
          else node), x.id = q.id := by
        refine ⟨attachNodeType p none, ?_, ?_⟩
        · exact List.mem_map.mpr ⟨n, hmem, by simp⟩
        · rw [show (attachNodeType p none).id = p.id from rfl, hpid, hqid]
      unfold nodeRemovalAt
      rw [mapGet_isSome_iff.mpr hsome]
      rfl
  · -- removed node: the attached previous node is reinserted
    have hattach := hnodeOK p rfl
    have hnofind : nodes.find? (fun node => some node.id == some p.id)
        = none := by
      rw [List.find?_eq_none]
      intro x hx
      simp [mapGet_eq_none_iff.mp hmg x hx]
    have hNodes : (handleRevertChange (removedNodeChange p).id
        { nodes := nodes, edges := edges, stagedChangeIds := staged,
          pendingChanges := computePendingChanges nodes edges bn be }).nodes
        = nodes ++ [attachNodeType p none] := by
      rw [hge.1]
      show revertNodes (removedNodeChange p) nodes = _
      unfold revertNodes
      simp only [removedNodeChange]
      simp [hnofind]
      exact fun x hx => mapGet_eq_none_iff.mp hmg x hx
    rw [hNodes, hge.2] at hc'
    refine no_node_id_entry ?_ ?_ c' hc' hid
    · intro x hx hxid
      rcases List.mem_append.mp hx with hxn | hxa
      · exact absurd hxid (mapGet_eq_none_iff.mp hmg x hxn)
      · have hxe : x = attachNodeType p none := by simpa using hxa
        subst hxe
        unfold nodeUpsertAt
        rw [show (attachNodeType p none).id = p.id from rfl,
          mapGet_eq_some_of_nodup hbn hmemb rfl]
        simp [hattach]
    · intro q hq hqid
      have hsome : ∃ x ∈ nodes ++ [attachNodeType p none], x.id = q.id :=
        ⟨attachNodeType p none, List.mem_append.mpr (Or.inr (by simp)),
          by rw [show (attachNodeType p none).id = p.id from rfl, hqid]⟩
      unfold nodeRemovalAt
      rw [mapGet_isSome_iff.mpr hsome]
      rfl
  · -- added edge: the live edge is deleted
    have hEdges : (handleRevertChange (addedEdgeChange e).id
        { nodes := nodes, edges := edges, stagedChangeIds := staged,
          pendingChanges := computePendingChanges nodes edges bn be }).edges
        = edges.filter (fun edge => !(some edge.id == some e.id)) := by
      rw [hge.2]
      rfl
    rw [hEdges, hge.1] at hc'
    refine no_edge_id_entry ?_ ?_ c' hc' hid
    · intro x hx hxid
      have hfil := (List.mem_filter.mp hx).2
      simp [hxid] at hfil
    · intro q hq hqid
      exact absurd hqid (mapGet_eq_none_iff.mp hmg q hq)
  · -- modified edge: the live edge is overwritten with the previous edge
    obtain ⟨hpmem, hpid⟩ := mapGet_eq_some_mem hmg
    have hrefl := hedgeOK p rfl
    have hEdges : (handleRevertChange (modifiedEdgeChange e p).id
        { nodes := nodes, edges := edges, stagedChangeIds := staged,
          pendingChanges := computePendingChanges nodes edges bn be }).edges
        = edges.map (fun edge =>
            if some edge.id == some e.id then p else edge) := by
      rw [hge.2]
      rfl
    rw [hEdges, hge.1] at hc'
    refine no_edge_id_entry ?_ ?_ c' hc' hid
    · intro x hx hxid
      obtain ⟨y, hy, hfy⟩ := List.mem_map.mp hx
      by_cases hyid : (some y.id == some e.id) = true
      · rw [if_pos hyid] at hfy
        subst hfy
        unfold edgeUpsertAt
        rw [hpid, hmg]
        simp [hrefl]
      · rw [if_neg hyid] at hfy
        subst hfy
        exact absurd (by simp [hxid]) hyid
    · intro q hq hqid
      have hsome : ∃ x ∈ edges.map (fun edge =>
          if some edge.id == some e.id then p else edge), x.id = q.id := by
        refine ⟨p, ?_, hpid.trans hqid.symm⟩
        exact List.mem_map.mpr ⟨e, hmem, by simp⟩
      unfold edgeRemovalAt
      rw [mapGet_isSome_iff.mpr hsome]
      rfl
  · -- removed edge: the previous edge is reinserted verbatim
    have hrefl := hedgeOK p rfl
    have hnofind : edges.find? (fun edge => some edge.id == some p.id)
        = none := by
      rw [List.find?_eq_none]
      intro x hx
      simp [mapGet_eq_none_iff.mp hmg x hx]
    have hEdges : (handleRevertChange (removedEdgeChange p).id
        { nodes := nodes, edges := edges, stagedChangeIds := staged,
          pendingChanges := computePendingChanges nodes edges bn be }).edges
        = edges ++ [p] := by
      rw [hge.2]
      show revertEdges (removedEdgeChange p) edges = _
      unfold revertEdges
      simp only [removedEdgeChange]
      simp [hnofind]
      exact fun x hx => mapGet_eq_none_iff.mp hmg x hx
    rw [hEdges, hge.1] at hc'
    refine no_edge_id_entry ?_ ?_ c' hc' hid
    · intro x hx hxid
      rcases List.mem_append.mp hx with hxn | hxa
      · exact absurd hxid (mapGet_eq_none_iff.mp hmg x hxn)
      · have hxe : x = p := by simpa using hxa
        subst hxe
        unfold edgeUpsertAt
        rw [mapGet_eq_some_of_nodup hbe hmemb rfl]
        simp [hrefl]
    · intro q hq hqid
      have hsome : ∃ x ∈ edges ++ [p], x.id = q.id :=
        ⟨p, List.mem_append.mpr (Or.inr (by simp)), hqid.symm⟩
      unfold edgeRemovalAt
      rw [mapGet_isSome_iff.mpr hsome]
      rfl

/-- C5 counterexample: with baseline `[revertBaselineNode]` and an empty
live graph the only pending change is the node removal `node:A`; reverting
it reinserts `attachNodeType(previousNode)`, which stamps a `nodeType` key
into `data`, so the reinserted node is not shallow-equal to the baseline
node and the recomputed diff contains a `modified` entry under the same
change id — the round trip is not the identity. -/
theorem revert_roundtrip_cex :
    ((computePendingChanges [] [] [revertBaselineNode] []).map
      PendingChange.id = [nodeChangeId "A"]) ∧
    ((computePendingChanges
        (handleRevertChange (nodeChangeId "A")
          { nodes := [], edges := [], stagedChangeIds := [nodeChangeId "A"],
            pendingChanges :=
              computePendingChanges [] [] [revertBaselineNode] [] }).nodes
        (handleRevertChange (nodeChangeId "A")
          { nodes := [], edges := [], stagedChangeIds := [nodeChangeId "A"],
            pendingChanges :=
              computePendingChanges [] [] [revertBaselineNode] [] }).edges
        [revertBaselineNode] []).any
      (fun c => c.id == nodeChangeId "A") = true) := by
  decide

/-- Witness for C5: reverting the added change `node:X` leaves a diff whose
only entry, the removal of `Y`, carries a different change id. -/
theorem handleRevertChange_spec_witness :
    (removedNodeChange revertGoneNode).id ≠
      (addedNodeChange revertLiveNode).id :=
  handleRevertChange_spec [revertLiveNode] [revertGoneNode] [] [] []
    (by decide) (by decide) (by decide) (by decide)
    (addedNodeChange revertLiveNode) (by decide)
    (fun p hp => Option.noConfusion hp)
    (fun p hp => Option.noConfusion hp)
    (removedNodeChange revertGoneNode) (by decide)

end MindMap
